import Mathlib

/-!
# Producer/consumer over a shared stack (`main.cc`)

A shallow embedding of `main.cc`: the globals become a `State`, each thread body
(`producer`, `consumer`, and the `produce` / `consume` calls inside them) becomes a
function that performs one atomic step of one thread, and a run of the program is
a list of scheduling choices (`Action`) folded over the initial state.

Conventions of the embedding:
* `products` is a `List` whose head is the top of the `std::stack`;
* the values returned by `rand()` are supplied by the schedule (they are
  non-negative, hence `Nat`);
* `std::condition_variable::wait_for` may wake spuriously, so a blocked consumer
  may wake at any time; the schedule says whether the wake-up is the timeout;
* the lines written to `cout` are recorded, in order, in `out`;
* undefined behaviour (`rand() % 0`, `top()` on an empty stack) is recorded in
  `fault` and stops the run.
-/

namespace Procon

/-- A product is a `pair<int,int>`: job id and duration. -/
abbrev Job := Int × Int

/-- The four globals `queue_size`, `max_jobs`, `num_producers`, `num_consumers`
as left by `main` after validation (all non-negative). -/
structure Config where
  queue_size : Nat
  max_jobs : Nat
  num_producers : Nat
  num_consumers : Nat
deriving DecidableEq

/-- The argument checks of `main` (lines 130-162), which set the four globals. The
results of `check_arg` on the four arguments are taken as given integers; `none` is
`exit(-1)`. The threads `main` then creates and joins are those of `init`. -/
def main (argc : Nat) (a1 a2 a3 a4 : Int) : Option Config :=
  if argc ≠ 5 then none
  else if a1 < 0 then none
  else if a2 < 0 then none
  else if a3 < 0 then none
  else if a4 < 0 then none
  else some ⟨a1.toNat, a2.toNat, a3.toNat, a4.toNat⟩

/-- Line 92: `rand() % 5 + 1`. -/
def rand_delay (r : Int) : Int := Int.tmod r 5 + 1

/-- Line 50: `rand() % queue_size` (C++ remainder truncates towards zero). -/
def product_first (queue_size r : Int) : Int := Int.tmod r queue_size

/-- Line 51: `rand() % 10 + 1`. -/
def product_second (r : Int) : Int := Int.tmod r 10 + 1

/-- Method `products.push(product)`. -/
def push (p : Job) (products : List Job) : List Job := p :: products

/-- Method `products.top()`; `none` on an empty stack (undefined behaviour in C++). -/
def top (products : List Job) : Option Job := products.head?

/-- Method `products.pop()`. -/
def pop (products : List Job) : List Job := products.tail

/-- Thread identities, used as the owner of `xmutex`. -/
inductive Tid where
  | producer (k : Nat)
  | consumer (i : Nat)
deriving DecidableEq

/-- The lines written to `cout`. -/
inductive Event where
  | produced (producer_id : Nat) (job : Job)
  | consumed (consumer_id : Nat) (job : Job)
  | noMoreToGenerate (producer_id : Nat)
  | noMoreLeft (consumer_id : Nat)
deriving DecidableEq

/-- Undefined behaviour the program can run into. -/
inductive Fault where
  | divByZero
  | topOnEmpty
deriving DecidableEq

/-- Program points inside `produce`. -/
inductive ProducePc where
  /-- Line 46, about to acquire `xmutex`. -/
  | lock
  /-- Lines 47-60, `xmutex` held. -/
  | crit
  /-- Line 61, the `unique_lock` is about to be destroyed. -/
  | unlock
deriving DecidableEq

/-- Program points of a producer thread. `i` is the loop counter and `d` the
local `rand_delay`. -/
inductive PState where
  /-- Line 88, before `++num_producers_working`. -/
  | start
  /-- Line 89, the loop test. -/
  | loop (i : Nat)
  /-- Line 94, inside `produce(id)`. -/
  | produce (i : Nat) (d : Int) (pc : ProducePc)
  /-- Line 95, `sleep_for`. -/
  | sleep (i : Nat) (d : Int)
  /-- Line 102, before `--num_producers_working`. -/
  | finishing
  /-- The thread has returned. -/
  | done
deriving DecidableEq

/-- Program points inside `consume`. -/
inductive ConsumePc where
  /-- Line 66, about to acquire `xmutex`. -/
  | lock
  /-- Line 69, `xmutex` held, first evaluation of the predicate of `wait_for`. -/
  | waitPred
  /-- Inside `wait_for`, `xmutex` released, waiting on `is_not_empty`. -/
  | blocked
  /-- Line 72, `wait_for` has returned `true`. -/
  | got
  /-- Line 80, `sleep_for(product.second * 1000)`. -/
  | sleep (d : Int)
  /-- Line 83, the `unique_lock` is about to be destroyed. -/
  | unlock
deriving DecidableEq

/-- Program points of a consumer thread. -/
inductive CState where
  /-- Line 109, `while(num_producers_working == 0) yield()`. -/
  | await
  /-- Line 111, reading `num_producers_working`. -/
  | check
  /-- Line 111, reading `products.size()`. -/
  | checkSize
  /-- Line 113, inside `consume(id)`. -/
  | consume (pc : ConsumePc)
  /-- The thread has returned. -/
  | done
deriving DecidableEq

/-- The shared variables together with the program point of every thread. -/
structure State where
  num_producers_working : Int
  products : List Job
  xmutex : Option Tid
  producers : List PState
  consumers : List CState
  out : List Event
  fault : Option Fault
deriving DecidableEq

/-- One scheduling choice: which thread runs its next step, with the values the
step obtains from `rand()` (producer), or whether a wake-up inside `wait_for` is
the timeout (consumer). -/
inductive Action where
  | prod (k : Nat) (r1 r2 : Nat)
  | cons (i : Nat) (timeout : Bool)
deriving DecidableEq

/-- State at the start of `main`'s thread creation. -/
def init (cfg : Config) : State :=
  { num_producers_working := 0
    products := []
    xmutex := none
    producers := List.replicate cfg.num_producers PState.start
    consumers := List.replicate cfg.num_consumers CState.await
    out := []
    fault := none }

/-- One step of `produce(k)` at program point `pc`; the result is the next program
point inside `produce`, or `none` when `produce` has returned. -/
def produce (cfg : Config) (s : State) (k : Nat) (pc : ProducePc) (r1 r2 : Nat) :
    Option (State × Option ProducePc) :=
  match pc with
  | ProducePc.lock =>
    match s.xmutex with
    | none => some ({ s with xmutex := some (Tid.producer k) }, some ProducePc.crit)
    | some _ => none
  | ProducePc.crit =>
    if cfg.queue_size = 0 then
      some ({ s with fault := some Fault.divByZero }, some ProducePc.crit)
    else
      let product : Job := (product_first cfg.queue_size r1, product_second r2)
      some ({ s with products := push product s.products
                     out := s.out ++ [Event.produced k product] },
            some ProducePc.unlock)
  | ProducePc.unlock => some ({ s with xmutex := none }, none)

/-- One step of the producer thread `k` (lines 86-103). -/
def producer (cfg : Config) (s : State) (k : Nat) (r1 r2 : Nat) : Option State :=
  match s.producers[k]? with
  | none => none
  | some PState.start =>
    some { s with num_producers_working := s.num_producers_working + 1
                  producers := s.producers.set k (PState.loop 0) }
  | some (PState.loop i) =>
    if i < cfg.max_jobs then
      some { s with producers :=
        s.producers.set k (PState.produce i (rand_delay r1) ProducePc.lock) }
    else
      some { s with out := s.out ++ [Event.noMoreToGenerate k]
                    producers := s.producers.set k PState.finishing }
  | some (PState.produce i d pc) =>
    match produce cfg s k pc r1 r2 with
    | none => none
    | some (s', some pc') =>
      some { s' with producers := s'.producers.set k (PState.produce i d pc') }
    | some (s', none) =>
      some { s' with producers := s'.producers.set k (PState.sleep i d) }
  | some (PState.sleep i _) =>
    some { s with producers := s.producers.set k (PState.loop (i + 1)) }
  | some PState.finishing =>
    some { s with num_producers_working := s.num_producers_working - 1
                  producers := s.producers.set k PState.done }
  | some PState.done => none

/-- One step of `consume(i)` at program point `pc`; the result is the next program
point inside `consume`, or `none` when `consume` has returned. -/
def consume (s : State) (i : Nat) (pc : ConsumePc) (timeout : Bool) :
    Option (State × Option ConsumePc) :=
  match pc with
  | ConsumePc.lock =>
    match s.xmutex with
    | none => some ({ s with xmutex := some (Tid.consumer i) }, some ConsumePc.waitPred)
    | some _ => none
  | ConsumePc.waitPred =>
    if s.products.length > 0 then some (s, some ConsumePc.got)
    else some ({ s with xmutex := none }, some ConsumePc.blocked)
  | ConsumePc.blocked =>
    match s.xmutex with
    | none =>
      if s.products.length > 0 then
        some ({ s with xmutex := some (Tid.consumer i) }, some ConsumePc.got)
      else if timeout then
        some ({ s with xmutex := some (Tid.consumer i) }, some ConsumePc.unlock)
      else some (s, some ConsumePc.blocked)
    | some _ => none
  | ConsumePc.got =>
    match top s.products with
    | none => some ({ s with fault := some Fault.topOnEmpty }, some ConsumePc.got)
    | some product =>
      some ({ s with products := pop s.products
                     out := s.out ++ [Event.consumed i product] },
            some (ConsumePc.sleep product.2))
  | ConsumePc.sleep _ => some (s, some ConsumePc.unlock)
  | ConsumePc.unlock => some ({ s with xmutex := none }, none)

/-- One step of the consumer thread `i` (lines 106-119). -/
def consumer (s : State) (i : Nat) (timeout : Bool) : Option State :=
  match s.consumers[i]? with
  | none => none
  | some CState.await =>
    if s.num_producers_working = 0 then some s
    else some { s with consumers := s.consumers.set i CState.check }
  | some CState.check =>
    if s.num_producers_working ≠ 0 then
      some { s with consumers := s.consumers.set i (CState.consume ConsumePc.lock) }
    else some { s with consumers := s.consumers.set i CState.checkSize }
  | some CState.checkSize =>
    if s.products.length > 0 then
      some { s with consumers := s.consumers.set i (CState.consume ConsumePc.lock) }
    else
      some { s with out := s.out ++ [Event.noMoreLeft i]
                    consumers := s.consumers.set i CState.done }
  | some (CState.consume pc) =>
    match consume s i pc timeout with
    | none => none
    | some (s', some pc') =>
      some { s' with consumers := s'.consumers.set i (CState.consume pc') }
    | some (s', none) =>
      some { s' with consumers := s'.consumers.set i CState.check }
  | some CState.done => none

/-- One step of the whole program: the scheduled thread runs its next step. No
step is possible after undefined behaviour. -/
def step (cfg : Config) (s : State) (a : Action) : Option State :=
  match s.fault with
  | some _ => none
  | none =>
    match a with
    | Action.prod k r1 r2 => producer cfg s k r1 r2
    | Action.cons i timeout => consumer s i timeout

/-- Run a schedule from a state; `none` when some scheduled step is not enabled. -/
def runFrom (cfg : Config) : State → List Action → Option State
  | s, [] => some s
  | s, a :: as =>
    match step cfg s a with
    | none => none
    | some s' => runFrom cfg s' as

/-- The states the program can be in: those some schedule leads to from `init`. -/
def Reachable (cfg : Config) (s : State) : Prop :=
  ∃ acts, runFrom cfg (init cfg) acts = some s

/-- Every thread has returned (all the `join`s of line 176 succeed). -/
def allFinished (s : State) : Prop :=
  (∀ ps ∈ s.producers, ps = PState.done) ∧ (∀ cs ∈ s.consumers, cs = CState.done)

/-- Jobs pushed so far, oldest first (the `Producer(..): Job id ..` lines). -/
def pushedJobs (out : List Event) : List Job :=
  out.filterMap fun e => match e with
    | Event.produced _ j => some j
    | _ => none

/-- Jobs withdrawn so far, oldest first (the `Consumer(..): Job id ..` lines). -/
def withdrawnJobs (out : List Event) : List Job :=
  out.filterMap fun e => match e with
    | Event.consumed _ j => some j
    | _ => none

/-- Number of jobs pushed so far by producer `k`. -/
def pushCount (k : Nat) (out : List Event) : Nat :=
  out.countP fun e => match e with
    | Event.produced k' _ => k' == k
    | _ => false

/-! ## The steps as relations

`PStep` and `CStep` list the steps of `producer` and `consumer` case by case; they
are only used to organise the proofs below. -/

/-- The steps of `producer cfg s k r1 r2`, one constructor for each. -/
inductive PStep (cfg : Config) (k r1 r2 : Nat) (s : State) : State → Prop
  | start (hk : s.producers[k]? = some PState.start) :
    PStep cfg k r1 r2 s
      { s with num_producers_working := s.num_producers_working + 1
               producers := s.producers.set k (PState.loop 0) }
  | enter (i : Nat) (hk : s.producers[k]? = some (PState.loop i)) (hi : i < cfg.max_jobs) :
    PStep cfg k r1 r2 s
      { s with producers :=
          s.producers.set k (PState.produce i (rand_delay r1) ProducePc.lock) }
  | leave (i : Nat) (hk : s.producers[k]? = some (PState.loop i)) (hi : ¬ i < cfg.max_jobs) :
    PStep cfg k r1 r2 s
      { s with out := s.out ++ [Event.noMoreToGenerate k]
               producers := s.producers.set k PState.finishing }
  | lock (i : Nat) (d : Int) (hk : s.producers[k]? = some (PState.produce i d ProducePc.lock))
      (hm : s.xmutex = none) :
    PStep cfg k r1 r2 s
      { s with xmutex := some (Tid.producer k)
               producers := s.producers.set k (PState.produce i d ProducePc.crit) }
  | divZero (i : Nat) (d : Int)
      (hk : s.producers[k]? = some (PState.produce i d ProducePc.crit))
      (hq : cfg.queue_size = 0) :
    PStep cfg k r1 r2 s
      { s with fault := some Fault.divByZero
               producers := s.producers.set k (PState.produce i d ProducePc.crit) }
  | push (i : Nat) (d : Int)
      (hk : s.producers[k]? = some (PState.produce i d ProducePc.crit))
      (hq : cfg.queue_size ≠ 0) :
    PStep cfg k r1 r2 s
      { s with products :=
                 (product_first cfg.queue_size r1, product_second r2) :: s.products
               out := s.out ++
                 [Event.produced k (product_first cfg.queue_size r1, product_second r2)]
               producers := s.producers.set k (PState.produce i d ProducePc.unlock) }
  | unlock (i : Nat) (d : Int)
      (hk : s.producers[k]? = some (PState.produce i d ProducePc.unlock)) :
    PStep cfg k r1 r2 s
      { s with xmutex := none
               producers := s.producers.set k (PState.sleep i d) }
  | wake (i : Nat) (d : Int) (hk : s.producers[k]? = some (PState.sleep i d)) :
    PStep cfg k r1 r2 s { s with producers := s.producers.set k (PState.loop (i + 1)) }
  | finish (hk : s.producers[k]? = some PState.finishing) :
    PStep cfg k r1 r2 s
      { s with num_producers_working := s.num_producers_working - 1
               producers := s.producers.set k PState.done }

/-- The steps of `consumer s i timeout`, one constructor for each. -/
inductive CStep (i : Nat) (timeout : Bool) (s : State) : State → Prop
  | spin (hi : s.consumers[i]? = some CState.await) (hn : s.num_producers_working = 0) :
    CStep i timeout s s
  | go (hi : s.consumers[i]? = some CState.await) (hn : s.num_producers_working ≠ 0) :
    CStep i timeout s { s with consumers := s.consumers.set i CState.check }
  | working (hi : s.consumers[i]? = some CState.check)
      (hn : s.num_producers_working ≠ 0) :
    CStep i timeout s
      { s with consumers := s.consumers.set i (CState.consume ConsumePc.lock) }
  | idle (hi : s.consumers[i]? = some CState.check) (hn : s.num_producers_working = 0) :
    CStep i timeout s { s with consumers := s.consumers.set i CState.checkSize }
  | left (hi : s.consumers[i]? = some CState.checkSize) (hp : s.products.length > 0) :
    CStep i timeout s
      { s with consumers := s.consumers.set i (CState.consume ConsumePc.lock) }
  | exit (hi : s.consumers[i]? = some CState.checkSize) (hp : ¬ s.products.length > 0) :
    CStep i timeout s
      { s with out := s.out ++ [Event.noMoreLeft i]
               consumers := s.consumers.set i CState.done }
  | lock (hi : s.consumers[i]? = some (CState.consume ConsumePc.lock))
      (hm : s.xmutex = none) :
    CStep i timeout s
      { s with xmutex := some (Tid.consumer i)
               consumers := s.consumers.set i (CState.consume ConsumePc.waitPred) }
  | predTrue (hi : s.consumers[i]? = some (CState.consume ConsumePc.waitPred))
      (hp : s.products.length > 0) :
    CStep i timeout s
      { s with consumers := s.consumers.set i (CState.consume ConsumePc.got) }
  | predFalse (hi : s.consumers[i]? = some (CState.consume ConsumePc.waitPred))
      (hp : ¬ s.products.length > 0) :
    CStep i timeout s
      { s with xmutex := none
               consumers := s.consumers.set i (CState.consume ConsumePc.blocked) }
  | wakeTrue (hi : s.consumers[i]? = some (CState.consume ConsumePc.blocked))
      (hm : s.xmutex = none) (hp : s.products.length > 0) :
    CStep i timeout s
      { s with xmutex := some (Tid.consumer i)
               consumers := s.consumers.set i (CState.consume ConsumePc.got) }
  | wakeTimeout (hi : s.consumers[i]? = some (CState.consume ConsumePc.blocked))
      (hm : s.xmutex = none) (hp : ¬ s.products.length > 0) (ht : timeout = true) :
    CStep i timeout s
      { s with xmutex := some (Tid.consumer i)
               consumers := s.consumers.set i (CState.consume ConsumePc.unlock) }
  | wakeAgain (hi : s.consumers[i]? = some (CState.consume ConsumePc.blocked))
      (hm : s.xmutex = none) (hp : ¬ s.products.length > 0) (ht : timeout = false) :
    CStep i timeout s
      { s with consumers := s.consumers.set i (CState.consume ConsumePc.blocked) }
  | topEmpty (hi : s.consumers[i]? = some (CState.consume ConsumePc.got))
      (hp : s.products = []) :
    CStep i timeout s
      { s with fault := some Fault.topOnEmpty
               consumers := s.consumers.set i (CState.consume ConsumePc.got) }
  | withdraw (p : Job) (rest : List Job)
      (hi : s.consumers[i]? = some (CState.consume ConsumePc.got))
      (hp : s.products = p :: rest) :
    CStep i timeout s
      { s with products := rest
               out := s.out ++ [Event.consumed i p]
               consumers := s.consumers.set i (CState.consume (ConsumePc.sleep p.2)) }
  | slept (d : Int) (hi : s.consumers[i]? = some (CState.consume (ConsumePc.sleep d))) :
    CStep i timeout s
      { s with consumers := s.consumers.set i (CState.consume ConsumePc.unlock) }
  | unlock (hi : s.consumers[i]? = some (CState.consume ConsumePc.unlock)) :
    CStep i timeout s
      { s with xmutex := none
               consumers := s.consumers.set i CState.check }

/-! ## Invariants: definitions -/

/-- A producer thread is counted in `num_producers_working`: it has executed the
increment of line 88 and not yet the decrement of line 102. -/
def PState.working : PState → Bool
  | PState.start => false
  | PState.done => false
  | _ => true

/-- The contribution of a producer thread to `num_producers_working`. -/
def PState.active (ps : PState) : Int := if ps.working then 1 else 0

/-- Program points of a producer at which it owns `xmutex`. -/
def PState.holds : PState → Bool
  | PState.produce _ _ ProducePc.crit => true
  | PState.produce _ _ ProducePc.unlock => true
  | _ => false

/-- Program points of a consumer at which it owns `xmutex`. -/
def CState.holds : CState → Bool
  | CState.consume ConsumePc.waitPred => true
  | CState.consume ConsumePc.got => true
  | CState.consume (ConsumePc.sleep _) => true
  | CState.consume ConsumePc.unlock => true
  | _ => false

/-- Number of `produce` calls a producer at this program point has completed the
push of (`J` is `max_jobs`). -/
def PState.pushes (J : Nat) : PState → Nat
  | PState.start => 0
  | PState.loop i => i
  | PState.produce i _ ProducePc.lock => i
  | PState.produce i _ ProducePc.crit => i
  | PState.produce i _ ProducePc.unlock => i + 1
  | PState.sleep i _ => i + 1
  | PState.finishing => J
  | PState.done => J

/-- The loop counter of a producer is within the bound of the loop. -/
def PState.wf (J : Nat) : PState → Prop
  | PState.loop i => i ≤ J
  | PState.produce i _ _ => i < J
  | PState.sleep i _ => i < J
  | _ => True

/-- The thread lists keep the lengths given by the configuration. -/
def LenInv (cfg : Config) (s : State) : Prop :=
  s.producers.length = cfg.num_producers ∧ s.consumers.length = cfg.num_consumers

/-- The counter is the number of producers between increment and decrement. -/
def CountInv (s : State) : Prop :=
  s.num_producers_working = (s.producers.map PState.active).sum

/-- The mutex is owned exactly by the thread that is inside a critical section. -/
def MutexInv (s : State) : Prop :=
  (∀ k ps, s.producers[k]? = some ps →
    (ps.holds = true ↔ s.xmutex = some (Tid.producer k))) ∧
  (∀ i cs, s.consumers[i]? = some cs →
    (cs.holds = true ↔ s.xmutex = some (Tid.consumer i)))

/-- A consumer for which `wait_for` has returned `true` finds the stack non-empty. -/
def NonemptyInv (s : State) : Prop :=
  ∀ (i : Nat) (cs : CState), s.consumers[i]? = some cs →
    cs = CState.consume ConsumePc.got → s.products ≠ []

/-- The program never calls `top()` on an empty stack; a division by zero needs
`queue_size = 0`. -/
def FaultInv (cfg : Config) (s : State) : Prop :=
  s.fault ≠ some Fault.topOnEmpty ∧ (s.fault = some Fault.divByZero → cfg.queue_size = 0)

/-- The lines written by producer `k` agree with its loop counter. -/
def QuotaInv (cfg : Config) (s : State) : Prop :=
  ∀ k ps, s.producers[k]? = some ps →
    ps.wf cfg.max_jobs ∧ pushCount k s.out = ps.pushes cfg.max_jobs

/-- The number of jobs pushed is the sum of the producers' completed pushes. -/
def TotalInv (cfg : Config) (s : State) : Prop :=
  (pushedJobs s.out).length = (s.producers.map (PState.pushes cfg.max_jobs)).sum

/-- Every job pushed is either withdrawn or still on the stack, exactly once. -/
def PermInv (s : State) : Prop :=
  (pushedJobs s.out).Perm (withdrawnJobs s.out ++ s.products)

/-- With a single producer: a consumer past its first loop has seen the producer
started, a consumer that has read `num_producers_working == 0` in its second loop
has seen it finished, and a consumer that has returned left the stack empty. -/
def SoloInv (s : State) : Prop :=
  ∀ (i : Nat) (cs : CState), s.consumers[i]? = some cs →
    (cs ≠ CState.await → s.producers[0]? ≠ some PState.start) ∧
    (cs = CState.checkSize ∨ cs = CState.done → s.producers[0]? = some PState.done) ∧
    (cs = CState.done → s.products = [])

/-- All the invariants together. -/
structure Inv (cfg : Config) (s : State) : Prop where
  len : LenInv cfg s
  count : CountInv s
  mutex : MutexInv s
  nonempty : NonemptyInv s
  nofault : FaultInv cfg s
  quota : QuotaInv cfg s
  total : TotalInv cfg s
  perm : PermInv s
  solo : cfg.num_producers = 1 → SoloInv s

/-! ## Derived operations and schedules of concrete runs -/

instance (s : State) : Decidable (allFinished s) := by
  unfold allFinished
  exact inferInstance

/-- A state in which no thread owns `xmutex`, nothing has gone wrong, and producer
`k` is at program point `ps`. -/
def Quiet (s : State) (k : Nat) (ps : PState) : Prop :=
  s.fault = none ∧ s.xmutex = none ∧ s.producers[k]? = some ps

/-- Schedule for `queue_size = 5`, `max_jobs = 2`, one producer, one consumer: the
producer pushes the job `(3, 5)` and then the job `(2, 8)`; the consumer has not
run yet. -/
def twoPushes : List Action :=
  List.replicate 4 (Action.prod 0 3 4) ++ List.replicate 6 (Action.prod 0 2 7)

/-- Continuation of `twoPushes`: the consumer runs alone through two calls of
`consume`, up to the sleep of the second. -/
def twoWithdrawals : List Action :=
  List.replicate 11 (Action.cons 0 false)

/-- Schedule for `queue_size = 1`, `max_jobs = 2`, one producer, no consumer: the
producer runs up to its second `produce`, just before the push. -/
def overfill : List Action :=
  List.replicate 8 (Action.prod 0 0 0)

/-- Schedule for `queue_size = 1`, `max_jobs = 1`, one producer: the producer runs
alone until it has returned. -/
def producerAlone : List Action :=
  List.replicate 8 (Action.prod 0 0 0)

/-- Schedule for scenario A (`queue_size = 5`, `max_jobs = 3`, two producers, two
consumers): producer 0 runs until it has returned, then producer 1. -/
def scenarioA : List Action :=
  List.replicate 18 (Action.prod 0 7 3) ++ List.replicate 18 (Action.prod 1 2 8)

/-- Schedule for `queue_size = 1`, `max_jobs = 1`, two producers, one consumer:
producer 0 starts, the consumer leaves its first loop, producer 0 pushes its job
and the consumer withdraws it, producer 0 returns, the consumer sees
`num_producers_working == 0` and an empty stack and returns; only then producer 1
runs. -/
def lateProducer : List Action :=
  [Action.prod 0 0 0, Action.cons 0 false] ++
  List.replicate 6 (Action.prod 0 0 0) ++
  List.replicate 6 (Action.cons 0 false) ++
  [Action.prod 0 0 0, Action.cons 0 false, Action.cons 0 false] ++
  List.replicate 8 (Action.prod 1 0 0)

/-- Schedule for `queue_size = 1`, `max_jobs = 1`, one producer, one consumer: a
full run in which the consumer withdraws the only job. -/
def soloRun : List Action :=
  [Action.prod 0 0 0, Action.cons 0 false] ++
  List.replicate 6 (Action.prod 0 0 0) ++
  List.replicate 6 (Action.cons 0 false) ++
  [Action.prod 0 0 0, Action.cons 0 false, Action.cons 0 false]

/-- Schedule for `queue_size = 1`, `max_jobs = 2`, one producer, one consumer: the
producer pushes its first job, the consumer withdraws it and starts its sleep, the
producer comes back to `produce` for its second job. -/
def sleepingConsumer : List Action :=
  List.replicate 5 (Action.prod 0 0 0) ++ List.replicate 5 (Action.cons 0 false) ++
  List.replicate 2 (Action.prod 0 0 0)

/-- Schedule for `queue_size = 1`, `max_jobs = 1`, one producer, one consumer: the
producer pushes its job and the consumer comes to line 72. -/
def consumerGot : List Action :=
  [Action.prod 0 0 0, Action.cons 0 false] ++ List.replicate 4 (Action.prod 0 0 0) ++
  List.replicate 3 (Action.cons 0 false)

/-- Schedule for the same configuration: the consumer enters `wait_for` while the
stack is still empty. -/
def consumerBlocked : List Action :=
  [Action.prod 0 0 0] ++ List.replicate 4 (Action.cons 0 false)

/-! ## The step functions and the step relations -/

theorem producer_step {cfg : Config} {s s' : State} {k r1 r2 : Nat}
    (h : producer cfg s k r1 r2 = some s') : PStep cfg k r1 r2 s s' := by
  unfold producer at h
  cases hk : s.producers[k]? with
  | none => simp [hk] at h
  | some ps =>
    rw [hk] at h
    cases ps with
    | start => simp at h; subst h; exact PStep.start hk
    | loop i =>
      simp only at h
      split at h
      · simp at h; subst h; exact PStep.enter i hk (by assumption)
      · simp at h; subst h; exact PStep.leave i hk (by assumption)
    | produce i d pc =>
      cases pc with
      | lock =>
        cases hm : s.xmutex with
        | none => simp [produce, hm] at h; subst h; exact PStep.lock i d hk hm
        | some t => simp [produce, hm] at h
      | crit =>
        by_cases hq : cfg.queue_size = 0
        · simp [produce, hq] at h; subst h; exact PStep.divZero i d hk hq
        · simp [produce, hq, push] at h; subst h; exact PStep.push i d hk hq
      | unlock => simp [produce] at h; subst h; exact PStep.unlock i d hk
    | sleep i d => simp at h; subst h; exact PStep.wake i d hk
    | finishing => simp at h; subst h; exact PStep.finish hk
    | done => simp at h

theorem consumer_step {s s' : State} {i : Nat} {timeout : Bool}
    (h : consumer s i timeout = some s') : CStep i timeout s s' := by
  unfold consumer at h
  cases hi : s.consumers[i]? with
  | none => simp [hi] at h
  | some cs =>
    rw [hi] at h
    cases cs with
    | await =>
      by_cases hn : s.num_producers_working = 0
      · simp [hn] at h; subst h; exact CStep.spin hi hn
      · simp [hn] at h; subst h; exact CStep.go hi hn
    | check =>
      by_cases hn : s.num_producers_working = 0
      · simp [hn] at h; subst h
        have h1 := @CStep.idle i timeout s hi hn
        rw [hn] at h1; exact h1
      · simp [hn] at h; subst h; exact CStep.working hi hn
    | checkSize =>
      by_cases hp : s.products.length > 0
      · simp only [hp, if_true] at h; cases h; exact CStep.left hi hp
      · simp only [hp, if_false] at h; cases h; exact CStep.exit hi hp
    | consume pc =>
      cases pc with
      | lock =>
        cases hm : s.xmutex with
        | none => simp [consume, hm] at h; subst h; exact CStep.lock hi hm
        | some t => simp [consume, hm] at h
      | waitPred =>
        by_cases hp : s.products.length > 0
        · simp only [consume, hp, if_true] at h; cases h; exact CStep.predTrue hi hp
        · simp only [consume, hp, if_false] at h; cases h; exact CStep.predFalse hi hp
      | blocked =>
        cases hm : s.xmutex with
        | none =>
          by_cases hp : s.products.length > 0
          · simp only [consume, hm, hp, if_true] at h; cases h
            exact CStep.wakeTrue hi hm hp
          · cases ht : timeout with
            | true =>
              simp only [consume, hm, hp, ht, if_false, if_true] at h; cases h
              exact CStep.wakeTimeout hi hm hp rfl
            | false =>
              simp only [consume, hm, hp, ht, if_false, Bool.false_eq_true] at h; cases h
              have h1 := @CStep.wakeAgain i false s hi hm hp rfl
              rw [hm] at h1; exact h1
        | some t => simp [consume, hm] at h
      | got =>
        cases hp : s.products with
        | nil =>
          simp [consume, top, hp] at h; subst h
          have h1 := @CStep.topEmpty i timeout s hi hp
          rw [hp] at h1; exact h1
        | cons p rest =>
          simp [consume, top, pop, hp] at h; subst h; exact CStep.withdraw p rest hi hp
      | sleep d => simp [consume] at h; subst h; exact CStep.slept d hi
      | unlock => simp [consume] at h; subst h; exact CStep.unlock hi
    | done => simp at h

/-! ## Invariants of the step relation -/

theorem getElem?_set_some {α : Type} {l : List α} {k j : Nat} {x y : α}
    (h : (l.set k x)[j]? = some y) : (j = k ∧ y = x) ∨ (j ≠ k ∧ l[j]? = some y) := by
  rw [List.getElem?_set] at h
  by_cases hkj : k = j
  · subst hkj
    simp only [if_true] at h
    split at h
    · left; exact ⟨rfl, (Option.some.inj h).symm⟩
    · cases h
  · right
    rw [if_neg hkj] at h
    exact ⟨fun e => hkj e.symm, h⟩

theorem forall_set {α : Type} {l : List α} {k : Nat} {x : α} {Q : Nat → α → Prop}
    (hx : Q k x) (h : ∀ j y, j ≠ k → l[j]? = some y → Q j y) :
    ∀ j y, (l.set k x)[j]? = some y → Q j y := by
  intro j y hj
  rcases getElem?_set_some hj with ⟨rfl, rfl⟩ | ⟨hne, hj'⟩
  · exact hx
  · exact h j y hne hj'

theorem sum_map_set {α : Type} (f : α → Int) (l : List α) (k : Nat) (x y : α)
    (h : l[k]? = some x) : ((l.set k y).map f).sum = (l.map f).sum - f x + f y := by
  induction l generalizing k with
  | nil => simp at h
  | cons a l ih =>
    cases k with
    | zero =>
      simp at h
      subst h
      simp only [List.set_cons_zero, List.map_cons, List.sum_cons]
      omega
    | succ k =>
      simp at h
      simp only [List.set_cons_succ, List.map_cons, List.sum_cons, ih k h]
      omega

theorem sum_map_set_nat {α : Type} (f : α → Nat) (l : List α) (k : Nat) (x y : α)
    (h : l[k]? = some x) : ((l.set k y).map f).sum + f x = (l.map f).sum + f y := by
  induction l generalizing k with
  | nil => simp at h
  | cons a l ih =>
    cases k with
    | zero =>
      simp at h
      subst h
      simp only [List.set_cons_zero, List.map_cons, List.sum_cons]
      omega
    | succ k =>
      simp at h
      have := ih k h
      simp only [List.set_cons_succ, List.map_cons, List.sum_cons]
      omega

theorem PStep.p_lenInv {cfg : Config} {k r1 r2 : Nat} {s s' : State}
    (h : PStep cfg k r1 r2 s s') (hinv : LenInv cfg s) : LenInv cfg s' := by
  cases h <;> simpa [LenInv] using hinv

theorem CStep.c_lenInv {cfg : Config} {i : Nat} {t : Bool} {s s' : State}
    (h : CStep i t s s') (hinv : LenInv cfg s) : LenInv cfg s' := by
  cases h <;> simpa [LenInv] using hinv

theorem PStep.p_countInv {cfg : Config} {k r1 r2 : Nat} {s s' : State}
    (h : PStep cfg k r1 r2 s s') (hinv : CountInv s) : CountInv s' := by
  unfold CountInv at *
  cases h with
  | start hk => 
    show _ = (List.map PState.active (List.set _ _ _)).sum
    rw [sum_map_set _ _ _ _ _ hk]
    simp [hinv, PState.active, PState.working]
  | enter i hk hi => 
    show _ = (List.map PState.active (List.set _ _ _)).sum
    rw [sum_map_set _ _ _ _ _ hk]
    simp [hinv, PState.active, PState.working]
  | leave i hk hi => 
    show _ = (List.map PState.active (List.set _ _ _)).sum
    rw [sum_map_set _ _ _ _ _ hk]
    simp [hinv, PState.active, PState.working]
  | lock i d hk hm => 
    show _ = (List.map PState.active (List.set _ _ _)).sum
    rw [sum_map_set _ _ _ _ _ hk]
    simp [hinv, PState.active, PState.working]
  | divZero i d hk hq => 
    show _ = (List.map PState.active (List.set _ _ _)).sum
    rw [sum_map_set _ _ _ _ _ hk]
    simp [hinv, PState.active, PState.working]
  | push i d hk hq => 
    show _ = (List.map PState.active (List.set _ _ _)).sum
    rw [sum_map_set _ _ _ _ _ hk]
    simp [hinv, PState.active, PState.working]
  | unlock i d hk => 
    show _ = (List.map PState.active (List.set _ _ _)).sum
    rw [sum_map_set _ _ _ _ _ hk]
    simp [hinv, PState.active, PState.working]
  | wake i d hk => 
    show _ = (List.map PState.active (List.set _ _ _)).sum
    rw [sum_map_set _ _ _ _ _ hk]
    simp [hinv, PState.active, PState.working]
  | finish hk => 
    show _ = (List.map PState.active (List.set _ _ _)).sum
    rw [sum_map_set _ _ _ _ _ hk]
    simp [hinv, PState.active, PState.working]

theorem CStep.c_countInv {i : Nat} {t : Bool} {s s' : State}
    (h : CStep i t s s') (hinv : CountInv s) : CountInv s' := by
  cases h <;> simpa [CountInv] using hinv

theorem PStep.p_mutexInv {cfg : Config} {k r1 r2 : Nat} {s s' : State}
    (h : PStep cfg k r1 r2 s s') (hinv : MutexInv s) : MutexInv s' := by
  obtain ⟨hP, hC⟩ := hinv
  cases h with
  | lock i d hk hm =>
    refine ⟨forall_set ?_ ?_, ?_⟩
    · simp [PState.holds]
    · intro j y hne hj
      have := hP j y hj
      simp [hm] at this
      simp [this, hne, Ne.symm hne]
    · intro j y hj
      have := hC j y hj
      simp [hm] at this
      simp [this]
  | unlock i d hk =>
    have hown := (hP k _ hk).1 rfl
    refine ⟨forall_set ?_ ?_, ?_⟩
    · simp [PState.holds]
    · intro j y hne hj
      have := hP j y hj
      simp [hown, hne, Ne.symm hne] at this
      simp [this]
    · intro j y hj
      have := hC j y hj
      simp [hown] at this
      simp [this]
  | _ =>
    refine ⟨forall_set ?_ ?_, ?_⟩
    · have := hP k _ (by assumption)
      simpa [PState.holds] using this
    · intro j y hne hj
      exact hP j y hj
    · exact hC

theorem CStep.c_mutexInv {i : Nat} {t : Bool} {s s' : State}
    (h : CStep i t s s') (hinv : MutexInv s) : MutexInv s' := by
  obtain ⟨hP, hC⟩ := hinv
  have acquire : ∀ cs', s.xmutex = none → cs'.holds = true →
      MutexInv { s with xmutex := some (Tid.consumer i)
                        consumers := s.consumers.set i cs' } := by
    intro cs' hm hh
    refine ⟨?_, forall_set ?_ ?_⟩
    · intro j y hj
      have := hP j y hj
      simp [hm] at this
      simp [this]
    · simp [hh]
    · intro j y hne hj
      have := hC j y hj
      simp [hm] at this
      simp [this, hne, Ne.symm hne]
  have release : ∀ cs cs', s.consumers[i]? = some cs → cs.holds = true →
      cs'.holds = false →
      MutexInv { s with xmutex := none
                        consumers := s.consumers.set i cs' } := by
    intro cs cs' hi hh hh'
    have hown := (hC i _ hi).1 hh
    refine ⟨?_, forall_set ?_ ?_⟩
    · intro j y hj
      have := hP j y hj
      simp [hown] at this
      simp [this]
    · simp [hh']
    · intro j y hne hj
      have := hC j y hj
      simp [hown, hne, Ne.symm hne] at this
      simp [this]
  have keep : ∀ cs cs', s.consumers[i]? = some cs → cs.holds = cs'.holds →
      MutexInv { s with consumers := s.consumers.set i cs' } := by
    intro cs cs' hi hh
    refine ⟨hP, forall_set ?_ ?_⟩
    · have := hC i _ hi
      rw [hh] at this
      exact this
    · intro j y hne hj
      exact hC j y hj
  cases h with
  | spin hi hn => exact ⟨hP, hC⟩
  | go hi hn => exact keep _ _ hi rfl
  | working hi hn => exact keep _ _ hi rfl
  | idle hi hn => exact keep _ _ hi rfl
  | left hi hp => exact keep _ _ hi rfl
  | exit hi hp => exact keep _ _ hi rfl
  | lock hi hm => exact acquire _ hm rfl
  | predTrue hi hp => exact keep _ _ hi rfl
  | predFalse hi hp => exact release _ _ hi rfl rfl
  | wakeTrue hi hm hp => exact acquire _ hm rfl
  | wakeTimeout hi hm hp ht => exact acquire _ hm rfl
  | wakeAgain hi hm hp ht => exact keep _ _ hi rfl
  | topEmpty hi hp => exact keep _ _ hi rfl
  | withdraw p rest hi hp => exact keep _ _ hi rfl
  | slept d hi => exact keep _ _ hi rfl
  | unlock hi => exact release _ _ hi rfl rfl

theorem PStep.p_nonemptyInv {cfg : Config} {k r1 r2 : Nat} {s s' : State}
    (h : PStep cfg k r1 r2 s s') (hinv : NonemptyInv s) : NonemptyInv s' := by
  cases h with
  | push i d hk hq => intro j cs _ _; simp
  | _ => exact hinv

theorem CStep.c_nonemptyInv {i : Nat} {t : Bool} {s s' : State}
    (h : CStep i t s s') (hm : MutexInv s) (hinv : NonemptyInv s) : NonemptyInv s' := by
  have leave : ∀ cs', cs' ≠ CState.consume ConsumePc.got → ∀ (j : Nat) (y : CState),
      (s.consumers.set i cs')[j]? = some y → y = CState.consume ConsumePc.got →
      s.products ≠ [] := by
    intro cs' hcs'
    refine forall_set ?_ ?_
    · intro e; exact absurd e hcs'
    · intro j y _ hj; exact hinv j y hj
  have arrive : s.products.length > 0 → ∀ (j : Nat) (y : CState),
      (s.consumers.set i (CState.consume ConsumePc.got))[j]? = some y →
      y = CState.consume ConsumePc.got → s.products ≠ [] := by
    intro hp j y _ _ e
    rw [e] at hp
    simp at hp
  cases h with
  | spin hi hn => exact hinv
  | go hi hn => exact leave _ (by simp)
  | working hi hn => exact leave _ (by simp)
  | idle hi hn => exact leave _ (by simp)
  | left hi hp => exact leave _ (by simp)
  | exit hi hp => exact leave _ (by simp)
  | lock hi hm => exact leave _ (by simp)
  | predTrue hi hp => exact arrive hp
  | predFalse hi hp => exact leave _ (by simp)
  | wakeTrue hi hm hp => exact arrive hp
  | wakeTimeout hi hm hp ht => exact leave _ (by simp)
  | wakeAgain hi hm hp ht => exact leave _ (by simp)
  | topEmpty hi hp => exact absurd hp (hinv i _ hi rfl)
  | withdraw p rest hi hp =>
    have hown := (hm.2 i _ hi).1 rfl
    refine forall_set ?_ ?_
    · intro e; simp at e
    · intro j y hne hj e
      subst e
      have := (hm.2 j _ hj).1 rfl
      rw [hown] at this
      simp at this
      exact absurd this.symm hne
  | slept d hi => exact leave _ (by simp)
  | unlock hi => exact leave _ (by simp)

theorem PStep.p_faultInv {cfg : Config} {k r1 r2 : Nat} {s s' : State}
    (h : PStep cfg k r1 r2 s s') (hinv : FaultInv cfg s) : FaultInv cfg s' := by
  cases h with
  | divZero i d hk hq => exact ⟨by simp, fun _ => hq⟩
  | _ => exact hinv

theorem CStep.c_faultInv {cfg : Config} {i : Nat} {t : Bool} {s s' : State}
    (h : CStep i t s s') (hn : NonemptyInv s) (hinv : FaultInv cfg s) : FaultInv cfg s' := by
  cases h with
  | topEmpty hi hp => exact absurd hp (hn i _ hi rfl)
  | _ => exact hinv

theorem pushCount_append (k : Nat) (out : List Event) (e : Event) :
    pushCount k (out ++ [e]) = pushCount k out + pushCount k [e] := by
  simp [pushCount, List.countP_append]

theorem pushCount_produced (k k' : Nat) (j : Job) :
    pushCount k [Event.produced k' j] = if k' = k then 1 else 0 := by
  by_cases h : k' = k <;> simp [pushCount, List.countP_cons, h]

theorem pushCount_consumed (k i : Nat) (j : Job) :
    pushCount k [Event.consumed i j] = 0 := by
  simp [pushCount, List.countP_cons]

theorem pushCount_noMoreToGenerate (k k' : Nat) :
    pushCount k [Event.noMoreToGenerate k'] = 0 := by
  simp [pushCount, List.countP_cons]

theorem pushCount_noMoreLeft (k i : Nat) :
    pushCount k [Event.noMoreLeft i] = 0 := by
  simp [pushCount, List.countP_cons]

theorem PStep.p_quotaInv {cfg : Config} {k r1 r2 : Nat} {s s' : State}
    (h : PStep cfg k r1 r2 s s') (hinv : QuotaInv cfg s) : QuotaInv cfg s' := by
  have keep : ∀ ps ps', s.producers[k]? = some ps → ps'.wf cfg.max_jobs →
      ps'.pushes cfg.max_jobs = ps.pushes cfg.max_jobs →
      ∀ (j : Nat) (y : PState), (s.producers.set k ps')[j]? = some y →
        y.wf cfg.max_jobs ∧ pushCount j s.out = y.pushes cfg.max_jobs := by
    intro ps ps' hk hwf he
    refine forall_set ⟨hwf, ?_⟩ ?_
    · rw [he]; exact (hinv k _ hk).2
    · intro j y _ hj; exact hinv j y hj
  cases h with
  | start hk => exact keep _ _ hk (Nat.zero_le _) rfl
  | enter i hk hi => exact keep _ _ hk hi rfl
  | leave i hk hi =>
    have := hinv k _ hk
    simp only [PState.wf, PState.pushes] at this
    refine forall_set ⟨trivial, ?_⟩ ?_
    · simp only [PState.pushes, pushCount_append, pushCount_noMoreToGenerate]
      omega
    · intro j y _ hj
      simpa [pushCount_append, pushCount_noMoreToGenerate] using hinv j y hj
  | lock i d hk hm => exact keep _ _ hk (hinv k _ hk).1 rfl
  | divZero i d hk hq => exact keep _ _ hk (hinv k _ hk).1 rfl
  | push i d hk hq =>
    have := hinv k _ hk
    simp only [PState.wf, PState.pushes] at this
    refine forall_set ⟨this.1, ?_⟩ ?_
    · simp only [PState.pushes, pushCount_append, pushCount_produced, if_true]
      omega
    · intro j y hne hj
      have := hinv j y hj
      simp only [pushCount_append, pushCount_produced, if_neg (Ne.symm hne)]
      simpa using this
  | unlock i d hk => exact keep _ _ hk (hinv k _ hk).1 rfl
  | wake i d hk =>
    have := hinv k _ hk
    simp only [PState.wf, PState.pushes] at this
    exact keep _ _ hk (Nat.succ_le_of_lt this.1) rfl
  | finish hk => exact keep _ _ hk trivial rfl

theorem CStep.c_quotaInv {cfg : Config} {i : Nat} {t : Bool} {s s' : State}
    (h : CStep i t s s') (hinv : QuotaInv cfg s) : QuotaInv cfg s' := by
  cases h with
  | exit hi hp =>
    intro k ps hk
    simpa [pushCount_append, pushCount_noMoreLeft] using hinv k ps hk
  | withdraw p rest hi hp =>
    intro k ps hk
    simpa [pushCount_append, pushCount_consumed] using hinv k ps hk
  | _ => exact hinv

theorem pushedJobs_append (out : List Event) (e : Event) :
    pushedJobs (out ++ [e]) = pushedJobs out ++ pushedJobs [e] := by
  simp [pushedJobs, List.filterMap_append]

theorem withdrawnJobs_append (out : List Event) (e : Event) :
    withdrawnJobs (out ++ [e]) = withdrawnJobs out ++ withdrawnJobs [e] := by
  simp [withdrawnJobs, List.filterMap_append]

theorem PStep.p_totalInv {cfg : Config} {k r1 r2 : Nat} {s s' : State}
    (h : PStep cfg k r1 r2 s s') (hq : QuotaInv cfg s) (hinv : TotalInv cfg s) :
    TotalInv cfg s' := by
  have key : ∀ (ps ps' : PState) (out' : List Event), s.producers[k]? = some ps →
      (pushedJobs out').length + ps.pushes cfg.max_jobs =
        (pushedJobs s.out).length + ps'.pushes cfg.max_jobs →
      (pushedJobs out').length =
        (List.map (PState.pushes cfg.max_jobs) (s.producers.set k ps')).sum := by
    intro ps ps' out' hk he
    have e := sum_map_set_nat (PState.pushes cfg.max_jobs) s.producers k ps ps' hk
    unfold TotalInv at hinv
    omega
  cases h with
  | start hk => exact key _ _ _ hk rfl
  | enter i hk hi => exact key _ _ _ hk rfl
  | leave i hk hi =>
    have := hq k _ hk
    simp only [PState.wf, PState.pushes] at this
    refine key _ _ _ hk ?_
    simp only [PState.pushes, pushedJobs_append]
    simp [pushedJobs]
    omega
  | lock i d hk hm => exact key _ _ _ hk rfl
  | divZero i d hk hq => exact key _ _ _ hk rfl
  | push i d hk hq =>
    refine key _ _ _ hk ?_
    simp only [PState.pushes, pushedJobs_append]
    simp [pushedJobs]
    omega
  | unlock i d hk => exact key _ _ _ hk rfl
  | wake i d hk => exact key _ _ _ hk rfl
  | finish hk => exact key _ _ _ hk rfl

theorem CStep.c_totalInv {cfg : Config} {i : Nat} {t : Bool} {s s' : State}
    (h : CStep i t s s') (hinv : TotalInv cfg s) : TotalInv cfg s' := by
  cases h with
  | exit hi hp => simpa [TotalInv, pushedJobs_append, pushedJobs] using hinv
  | withdraw p rest hi hp => simpa [TotalInv, pushedJobs_append, pushedJobs] using hinv
  | _ => exact hinv

theorem PStep.p_permInv {cfg : Config} {k r1 r2 : Nat} {s s' : State}
    (h : PStep cfg k r1 r2 s s') (hinv : PermInv s) : PermInv s' := by
  cases h with
  | leave i hk hi =>
    simpa [PermInv, pushedJobs_append, withdrawnJobs_append, pushedJobs, withdrawnJobs]
      using hinv
  | push i d hk hq =>
    unfold PermInv at *
    simp only [pushedJobs_append, withdrawnJobs_append]
    simp only [pushedJobs, withdrawnJobs, List.filterMap_cons, List.filterMap_nil,
      List.append_nil]
    refine (List.perm_append_singleton _ _).trans ?_
    exact (List.Perm.cons _ hinv).trans List.perm_middle.symm
  | _ => exact hinv

theorem CStep.c_permInv {i : Nat} {t : Bool} {s s' : State}
    (h : CStep i t s s') (hinv : PermInv s) : PermInv s' := by
  cases h with
  | exit hi hp =>
    simpa [PermInv, pushedJobs_append, withdrawnJobs_append, pushedJobs, withdrawnJobs]
      using hinv
  | withdraw p rest hi hp =>
    unfold PermInv at *
    rw [hp] at hinv
    simp only [pushedJobs_append, withdrawnJobs_append]
    simpa [pushedJobs, withdrawnJobs] using hinv
  | _ => exact hinv

theorem PStep.local {cfg : Config} {k r1 r2 : Nat} {s s' : State}
    (h : PStep cfg k r1 r2 s s') :
    ∃ ps ps', s.producers[k]? = some ps ∧ ps ≠ PState.done ∧ ps' ≠ PState.start ∧
      s'.producers = s.producers.set k ps' ∧ s'.consumers = s.consumers := by
  cases h with
  | start hk => exact ⟨_, _, hk, by simp, by simp, rfl, rfl⟩
  | enter i hk hi => exact ⟨_, _, hk, by simp, by simp, rfl, rfl⟩
  | leave i hk hi => exact ⟨_, _, hk, by simp, by simp, rfl, rfl⟩
  | lock i d hk hm => exact ⟨_, _, hk, by simp, by simp, rfl, rfl⟩
  | divZero i d hk hq => exact ⟨_, _, hk, by simp, by simp, rfl, rfl⟩
  | push i d hk hq => exact ⟨_, _, hk, by simp, by simp, rfl, rfl⟩
  | unlock i d hk => exact ⟨_, _, hk, by simp, by simp, rfl, rfl⟩
  | wake i d hk => exact ⟨_, _, hk, by simp, by simp, rfl, rfl⟩
  | finish hk => exact ⟨_, _, hk, by simp, by simp, rfl, rfl⟩

theorem PStep.p_soloInv {cfg : Config} {k r1 r2 : Nat} {s s' : State}
    (h : PStep cfg k r1 r2 s s') (hlen : s.producers.length = 1) (hinv : SoloInv s) :
    SoloInv s' := by
  obtain ⟨ps, ps', hk, hnd, hns, hP, hC⟩ := h.local
  have hk0 : k = 0 := by
    have := (List.getElem?_eq_some_iff.1 hk).1
    omega
  subst hk0
  intro i cs hi
  rw [hC] at hi
  obtain ⟨_, h2, h3⟩ := hinv i cs hi
  have hno : ¬ (cs = CState.checkSize ∨ cs = CState.done) := by
    intro hcs
    have := h2 hcs
    rw [hk] at this
    exact hnd (Option.some.inj this)
  refine ⟨fun _ => ?_, fun hcs => absurd hcs hno, fun hcs => absurd (Or.inr hcs) hno⟩
  rw [hP, List.getElem?_set_self (by omega)]
  intro e
  exact hns (Option.some.inj e)

theorem CStep.c_soloInv {i : Nat} {t : Bool} {s s' : State}
    (h : CStep i t s s') (hlen : s.producers.length = 1) (hc : CountInv s)
    (hinv : SoloInv s) : SoloInv s' := by
  obtain ⟨ps, hps⟩ : ∃ ps, s.producers = [ps] := by
    match hs : s.producers, hlen with
    | [ps], _ => exact ⟨ps, rfl⟩
  have hnpw : s.num_producers_working = ps.active := by
    rw [hc, hps]; simp
  have h0 : s.producers[0]? = some ps := by rw [hps]; rfl
  have keep : ∀ (cs cs' : CState), s.consumers[i]? = some cs → cs ≠ CState.await →
      cs' ≠ CState.checkSize → cs' ≠ CState.done →
      ∀ (j : Nat) (y : CState), (s.consumers.set i cs')[j]? = some y →
        (y ≠ CState.await → s.producers[0]? ≠ some PState.start) ∧
        (y = CState.checkSize ∨ y = CState.done → s.producers[0]? = some PState.done) ∧
        (y = CState.done → s.products = []) := by
    intro cs cs' hi hcs h1 h2
    refine forall_set ⟨fun _ => (hinv i cs hi).1 hcs, ?_, ?_⟩ ?_
    · rintro (e | e)
      · exact absurd e h1
      · exact absurd e h2
    · intro e; exact absurd e h2
    · intro j y _ hj; exact hinv j y hj
  cases h with
  | spin hi hn => exact hinv
  | go hi hn =>
    refine forall_set ⟨fun _ => ?_, by simp, by simp⟩ ?_
    · rw [h0]
      intro e
      rw [Option.some.inj e] at hnpw
      exact hn hnpw
    · intro j y _ hj; exact hinv j y hj
  | working hi hn => exact keep _ _ hi (by simp) (by simp) (by simp)
  | idle hi hn =>
    have hns := (hinv i _ hi).1 (by simp)
    have hd : s.producers[0]? = some PState.done := by
      rw [h0] at hns ⊢
      rw [hn] at hnpw
      cases ps with
      | start => exact absurd rfl hns
      | done => rfl
      | _ => simp [PState.active, PState.working] at hnpw
    refine forall_set ⟨fun _ => hns, fun _ => hd, by simp⟩ ?_
    intro j y _ hj; exact hinv j y hj
  | left hi hp => exact keep _ _ hi (by simp) (by simp) (by simp)
  | exit hi hp =>
    have hold := hinv i _ hi
    refine forall_set ⟨fun _ => hold.1 (by simp), fun _ => hold.2.1 (Or.inl rfl), fun _ => ?_⟩ ?_
    · show s.products = []
      exact List.length_eq_zero.1 (by omega)
    · intro j y _ hj; exact hinv j y hj
  | lock hi hm => exact keep _ _ hi (by simp) (by simp) (by simp)
  | predTrue hi hp => exact keep _ _ hi (by simp) (by simp) (by simp)
  | predFalse hi hp => exact keep _ _ hi (by simp) (by simp) (by simp)
  | wakeTrue hi hm hp => exact keep _ _ hi (by simp) (by simp) (by simp)
  | wakeTimeout hi hm hp ht => exact keep _ _ hi (by simp) (by simp) (by simp)
  | wakeAgain hi hm hp ht => exact keep _ _ hi (by simp) (by simp) (by simp)
  | topEmpty hi hp => exact keep _ _ hi (by simp) (by simp) (by simp)
  | withdraw p rest hi hp =>
    refine forall_set ⟨fun _ => (hinv i _ hi).1 (by simp), by simp, by simp⟩ ?_
    intro j y _ hj
    obtain ⟨h1, h2, h3⟩ := hinv j y hj
    refine ⟨h1, h2, fun e => ?_⟩
    have := h3 e
    rw [hp] at this
    cases this
  | slept d hi => exact keep _ _ hi (by simp) (by simp) (by simp)
  | unlock hi => exact keep _ _ hi (by simp) (by simp) (by simp)

theorem getElem?_replicate_some {α : Type} {n k : Nat} {a x : α}
    (h : (List.replicate n a)[k]? = some x) : x = a := by
  rw [List.getElem?_replicate] at h
  split at h
  · exact (Option.some.inj h).symm
  · cases h

theorem init_inv (cfg : Config) : Inv cfg (init cfg) where
  len := by simp [LenInv, init]
  count := by simp [CountInv, init, PState.active, PState.working]
  mutex := by
    constructor
    · intro k ps hk
      have := getElem?_replicate_some hk
      subst this
      simp [init, PState.holds]
    · intro i cs hi
      have := getElem?_replicate_some hi
      subst this
      simp [init, CState.holds]
  nonempty := by
    intro i cs hi e
    have := getElem?_replicate_some hi
    subst this
    cases e
  nofault := by simp [FaultInv, init]
  quota := by
    intro k ps hk
    have := getElem?_replicate_some hk
    subst this
    simp [init, PState.wf, PState.pushes, pushCount]
  total := by simp [TotalInv, init, pushedJobs, PState.pushes]
  perm := by simp [PermInv, init, pushedJobs, withdrawnJobs]
  solo := by
    intro _ i cs hi
    have := getElem?_replicate_some hi
    subst this
    simp

theorem PStep.p_inv {cfg : Config} {k r1 r2 : Nat} {s s' : State}
    (h : PStep cfg k r1 r2 s s') (hinv : Inv cfg s) : Inv cfg s' where
  len := h.p_lenInv hinv.len
  count := h.p_countInv hinv.count
  mutex := h.p_mutexInv hinv.mutex
  nonempty := h.p_nonemptyInv hinv.nonempty
  nofault := h.p_faultInv hinv.nofault
  quota := h.p_quotaInv hinv.quota
  total := h.p_totalInv hinv.quota hinv.total
  perm := h.p_permInv hinv.perm
  solo := fun h1 => h.p_soloInv (hinv.len.1.trans h1) (hinv.solo h1)

theorem CStep.c_inv {cfg : Config} {i : Nat} {t : Bool} {s s' : State}
    (h : CStep i t s s') (hinv : Inv cfg s) : Inv cfg s' where
  len := h.c_lenInv hinv.len
  count := h.c_countInv hinv.count
  mutex := h.c_mutexInv hinv.mutex
  nonempty := h.c_nonemptyInv hinv.mutex hinv.nonempty
  nofault := h.c_faultInv hinv.nonempty hinv.nofault
  quota := h.c_quotaInv hinv.quota
  total := h.c_totalInv hinv.total
  perm := h.c_permInv hinv.perm
  solo := fun h1 => h.c_soloInv (hinv.len.1.trans h1) hinv.count (hinv.solo h1)

theorem step_cases {cfg : Config} {s s' : State} {a : Action} (h : step cfg s a = some s') :
    s.fault = none ∧
      ((∃ k r1 r2, a = Action.prod k r1 r2 ∧ PStep cfg k r1 r2 s s') ∨
       (∃ i t, a = Action.cons i t ∧ CStep i t s s')) := by
  unfold step at h
  cases hf : s.fault with
  | some f => simp [hf] at h
  | none =>
    rw [hf] at h
    refine ⟨rfl, ?_⟩
    cases a with
    | prod k r1 r2 => exact Or.inl ⟨k, r1, r2, rfl, producer_step h⟩
    | cons i t => exact Or.inr ⟨i, t, rfl, consumer_step h⟩

theorem step_inv {cfg : Config} {s s' : State} {a : Action} (h : step cfg s a = some s')
    (hinv : Inv cfg s) : Inv cfg s' := by
  rcases (step_cases h).2 with ⟨k, r1, r2, _, hs⟩ | ⟨i, t, _, hs⟩
  · exact hs.p_inv hinv
  · exact hs.c_inv hinv

theorem runFrom_inv {cfg : Config} {acts : List Action} {s s' : State}
    (h : runFrom cfg s acts = some s') (hinv : Inv cfg s) : Inv cfg s' := by
  induction acts generalizing s with
  | nil =>
    simp only [runFrom] at h
    cases h
    exact hinv
  | cons a as ih =>
    simp only [runFrom] at h
    cases hs : step cfg s a with
    | none => simp [hs] at h
    | some s1 =>
      rw [hs] at h
      exact ih h (step_inv hs hinv)

theorem reachable_inv {cfg : Config} {s : State} (h : Reachable cfg s) : Inv cfg s := by
  obtain ⟨acts, h⟩ := h
  exact runFrom_inv h (init_inv cfg)

theorem runFrom_append {cfg : Config} {acts bs : List Action} {s s1 s2 : State}
    (h1 : runFrom cfg s acts = some s1) (h2 : runFrom cfg s1 bs = some s2) :
    runFrom cfg s (acts ++ bs) = some s2 := by
  induction acts generalizing s with
  | nil =>
    simp only [runFrom] at h1
    cases h1
    exact h2
  | cons a as ih =>
    simp only [runFrom, List.cons_append] at h1 ⊢
    cases hs : step cfg s a with
    | none => simp [hs] at h1
    | some s' =>
      rw [hs] at h1
      simp only []
      exact ih h1

theorem reachable_runFrom {cfg : Config} {acts : List Action} {s s' : State}
    (hr : Reachable cfg s) (h : runFrom cfg s acts = some s') : Reachable cfg s' := by
  obtain ⟨as, has⟩ := hr
  exact ⟨as ++ acts, runFrom_append has h⟩

/-! ## Further consequences of the invariants -/

theorem sum_active_eq_countP (l : List PState) :
    (l.map PState.active).sum = ((l.countP PState.working : Nat) : Int) := by
  induction l with
  | nil => simp
  | cons p l ih =>
    simp only [List.map_cons, List.sum_cons, ih, List.countP_cons]
    by_cases hp : p.working = true
    · simp [PState.active, hp]; omega
    · simp [PState.active, hp]

theorem countP_working_of_done (l : List PState) (h : ∀ ps ∈ l, ps = PState.done) :
    l.countP PState.working = 0 := by
  rw [List.countP_eq_zero]
  intro ps hps
  rw [h ps hps]
  simp [PState.working]

theorem step_producers_of_done {cfg : Config} {s s' : State} {a : Action}
    (hd : ∀ ps ∈ s.producers, ps = PState.done) (h : step cfg s a = some s') :
    s'.producers = s.producers := by
  rcases (step_cases h).2 with ⟨k, r1, r2, _, hs⟩ | ⟨i, t, _, hs⟩
  · obtain ⟨ps, ps', hk, hnd, _, _, _⟩ := hs.local
    exact absurd (hd ps (List.getElem?_mem hk)) hnd
  · cases hs <;> rfl

theorem runFrom_producers_of_done {cfg : Config} {acts : List Action} {s s' : State}
    (hd : ∀ ps ∈ s.producers, ps = PState.done) (h : runFrom cfg s acts = some s') :
    s'.producers = s.producers := by
  induction acts generalizing s with
  | nil =>
    simp only [runFrom] at h
    cases h
    rfl
  | cons a as ih =>
    simp only [runFrom] at h
    cases hs : step cfg s a with
    | none => simp [hs] at h
    | some s1 =>
      rw [hs] at h
      have e := step_producers_of_done hd hs
      rw [← e]
      exact ih (by rw [e]; exact hd) h

theorem init_step_of_no_producers {cfg : Config} {s' : State} {a : Action}
    (h0 : cfg.num_producers = 0) (h : step cfg (init cfg) a = some s') : s' = init cfg := by
  rcases (step_cases h).2 with ⟨k, r1, r2, _, hs⟩ | ⟨i, t, _, hs⟩
  · obtain ⟨ps, ps', hk, _⟩ := hs.local
    simp [init, h0] at hk
  · have hawait : ∀ cs, (init cfg).consumers[i]? = some cs → cs = CState.await :=
      fun cs hcs => getElem?_replicate_some hcs
    cases hs with
    | spin hi hn => rfl
    | go hi hn => exact absurd rfl hn
    | working hi hn => exact absurd rfl hn
    | _ =>
      have := hawait _ (by assumption)
      cases this

theorem runFrom_init_of_no_producers {cfg : Config} {acts : List Action} {s : State}
    (h0 : cfg.num_producers = 0) (h : runFrom cfg (init cfg) acts = some s) :
    s = init cfg := by
  induction acts with
  | nil =>
    simp only [runFrom] at h
    cases h
    rfl
  | cons a as ih =>
    simp only [runFrom] at h
    cases hs : step cfg (init cfg) a with
    | none => simp [hs] at h
    | some s1 =>
      rw [hs, init_step_of_no_producers h0 hs] at h
      exact ih h

theorem init_consumer_spins (cfg : Config) (i : Nat)
    (hi : i < cfg.num_consumers) (t : Bool) :
    step cfg (init cfg) (Action.cons i t) = some (init cfg) := by
  have : (init cfg).consumers[i]? = some CState.await := by
    simp [init, List.getElem?_replicate, hi]
  simp only [step, init] at this ⊢
  simp only [consumer, this]
  simp

theorem PState.pushes_le {J : Nat} {ps : PState} (h : ps.wf J) : ps.pushes J ≤ J := by
  cases ps with
  | produce i d pc => cases pc <;> simp only [PState.wf, PState.pushes] at * <;> omega
  | _ => simp only [PState.wf, PState.pushes] at *; omega

theorem sum_map_le {α : Type} (f : α → Nat) (J : Nat) (l : List α)
    (h : ∀ x ∈ l, f x ≤ J) : (l.map f).sum ≤ l.length * J := by
  induction l with
  | nil => simp
  | cons a l ih =>
    have h1 := h a (List.mem_cons_self a l)
    have h2 := ih (fun x hx => h x (List.mem_cons_of_mem a hx))
    simp only [List.map_cons, List.sum_cons, List.length_cons, Nat.succ_mul]
    omega

theorem sum_map_const {α : Type} (f : α → Nat) (J : Nat) (l : List α)
    (h : ∀ x ∈ l, f x = J) : (l.map f).sum = l.length * J := by
  induction l with
  | nil => simp
  | cons a l ih =>
    have h1 := h a (List.mem_cons_self a l)
    have h2 := ih (fun x hx => h x (List.mem_cons_of_mem a hx))
    simp only [List.map_cons, List.sum_cons, List.length_cons, Nat.succ_mul]
    omega

theorem pushed_le {cfg : Config} {s : State} (hinv : Inv cfg s) :
    (pushedJobs s.out).length ≤ cfg.num_producers * cfg.max_jobs := by
  rw [hinv.total, ← hinv.len.1]
  apply sum_map_le
  intro ps hps
  obtain ⟨k, hk⟩ := List.getElem?_of_mem hps
  exact PState.pushes_le (hinv.quota k ps hk).1

/-! ## Stack discipline -/

theorem step_effect {cfg : Config} {s s' : State} {a : Action}
    (h : step cfg s a = some s') :
    (∃ k p, s'.out = s.out ++ [Event.produced k p] ∧ s'.products = p :: s.products) ∨
    (∃ i p, s'.out = s.out ++ [Event.consumed i p] ∧ s.products = p :: s'.products) ∨
    (pushedJobs s'.out = pushedJobs s.out ∧ withdrawnJobs s'.out = withdrawnJobs s.out ∧
      s'.products = s.products) := by
  rcases (step_cases h).2 with ⟨k, r1, r2, _, hs⟩ | ⟨i, t, _, hs⟩
  · cases hs with
    | push i d hk hq => exact Or.inl ⟨k, _, rfl, rfl⟩
    | leave i hk hi =>
      refine Or.inr (Or.inr ⟨?_, ?_, rfl⟩)
      · simp [pushedJobs_append, pushedJobs]
      · simp [withdrawnJobs_append, withdrawnJobs]
    | _ => exact Or.inr (Or.inr ⟨rfl, rfl, rfl⟩)
  · cases hs with
    | withdraw p rest hi hp => exact Or.inr (Or.inl ⟨i, p, rfl, hp⟩)
    | exit hi hp =>
      refine Or.inr (Or.inr ⟨?_, ?_, rfl⟩)
      · simp [pushedJobs_append, pushedJobs]
      · simp [withdrawnJobs_append, withdrawnJobs]
    | _ => exact Or.inr (Or.inr ⟨rfl, rfl, rfl⟩)

theorem pushedJobs_produced (out : List Event) (k : Nat) (p : Job) :
    pushedJobs (out ++ [Event.produced k p]) = pushedJobs out ++ [p] := by
  simp [pushedJobs_append, pushedJobs]

theorem withdrawnJobs_produced (out : List Event) (k : Nat) (p : Job) :
    withdrawnJobs (out ++ [Event.produced k p]) = withdrawnJobs out := by
  simp [withdrawnJobs_append, withdrawnJobs]

theorem pushedJobs_consumed (out : List Event) (i : Nat) (p : Job) :
    pushedJobs (out ++ [Event.consumed i p]) = pushedJobs out := by
  simp [pushedJobs_append, pushedJobs]

theorem withdrawnJobs_consumed (out : List Event) (i : Nat) (p : Job) :
    withdrawnJobs (out ++ [Event.consumed i p]) = withdrawnJobs out ++ [p] := by
  simp [withdrawnJobs_append, withdrawnJobs]

theorem step_counts {cfg : Config} {s s' : State} {a : Action}
    (h : step cfg s a = some s') :
    (pushedJobs s.out).length ≤ (pushedJobs s'.out).length ∧
    (withdrawnJobs s.out).length ≤ (withdrawnJobs s'.out).length := by
  rcases step_effect h with ⟨k, p, ho, _⟩ | ⟨i, p, ho, _⟩ | ⟨h1, h2, _⟩
  · rw [ho, pushedJobs_produced, withdrawnJobs_produced]; simp
  · rw [ho, pushedJobs_consumed, withdrawnJobs_consumed]; simp
  · rw [h1, h2]; exact ⟨Nat.le_refl _, Nat.le_refl _⟩

theorem runFrom_counts {cfg : Config} {acts : List Action} {s s' : State}
    (h : runFrom cfg s acts = some s') :
    (pushedJobs s.out).length ≤ (pushedJobs s'.out).length ∧
    (withdrawnJobs s.out).length ≤ (withdrawnJobs s'.out).length := by
  induction acts generalizing s with
  | nil =>
    simp only [runFrom] at h
    cases h
    exact ⟨Nat.le_refl _, Nat.le_refl _⟩
  | cons a as ih =>
    simp only [runFrom] at h
    cases hs : step cfg s a with
    | none => simp [hs] at h
    | some sm =>
      rw [hs] at h
      have h1 := step_counts hs
      have h2 := ih h
      exact ⟨Nat.le_trans h1.1 h2.1, Nat.le_trans h1.2 h2.2⟩

/-- Along a run without withdrawal the jobs pushed lie on top of the old stack,
the last one pushed on top. -/
theorem runFrom_push_only {cfg : Config} {acts : List Action} {s s' : State}
    (h : runFrom cfg s acts = some s')
    (hw : (withdrawnJobs s'.out).length = (withdrawnJobs s.out).length) :
    ∃ ps, pushedJobs s'.out = pushedJobs s.out ++ ps ∧
      s'.products = ps.reverse ++ s.products := by
  induction acts generalizing s with
  | nil =>
    simp only [runFrom] at h
    cases h
    exact ⟨[], by simp, by simp⟩
  | cons a as ih =>
    simp only [runFrom] at h
    cases hs : step cfg s a with
    | none => simp [hs] at h
    | some sm =>
      rw [hs] at h
      have hc1 := (step_counts hs).2
      have hc2 := (runFrom_counts h).2
      obtain ⟨ps, hp, hprod⟩ := ih h (by omega)
      rcases step_effect hs with ⟨k, p, ho, hpr⟩ | ⟨i, p, ho, _⟩ | ⟨h1, _, hpr⟩
      · refine ⟨p :: ps, ?_, ?_⟩
        · rw [hp, ho, pushedJobs_produced]; simp
        · rw [hprod, hpr]; simp
      · rw [ho, withdrawnJobs_consumed, List.length_append] at hc2
        simp at hc2
        omega
      · exact ⟨ps, by rw [hp, h1], by rw [hprod, hpr]⟩

/-- Along a run without push the jobs withdrawn are taken from the top of the
stack, in order. -/
theorem runFrom_withdraw_only {cfg : Config} {acts : List Action} {s s' : State}
    (h : runFrom cfg s acts = some s')
    (hp : (pushedJobs s'.out).length = (pushedJobs s.out).length) :
    ∃ ws, withdrawnJobs s'.out = withdrawnJobs s.out ++ ws ∧
      s.products = ws ++ s'.products := by
  induction acts generalizing s with
  | nil =>
    simp only [runFrom] at h
    cases h
    exact ⟨[], by simp, by simp⟩
  | cons a as ih =>
    simp only [runFrom] at h
    cases hs : step cfg s a with
    | none => simp [hs] at h
    | some sm =>
      rw [hs] at h
      have hc1 := (step_counts hs).1
      have hc2 := (runFrom_counts h).1
      obtain ⟨ws, hw, hprod⟩ := ih h (by omega)
      rcases step_effect hs with ⟨k, p, ho, _⟩ | ⟨i, p, ho, hpr⟩ | ⟨_, h2, hpr⟩
      · rw [ho, pushedJobs_produced, List.length_append] at hc2
        simp at hc2
        omega
      · refine ⟨p :: ws, ?_, ?_⟩
        · rw [hw, ho, withdrawnJobs_consumed]; simp
        · rw [hpr, hprod]; simp
      · exact ⟨ws, by rw [hw, h2], by rw [← hpr, hprod]⟩

/-- C2. LIFO law: for every state `s` and every list of jobs `p1, .., pn` (in
particular every non-empty one): if a run from `s` to `s1` pushes exactly
`p1, .., pn` in that order (the `produce` steps of lines 50-56) and withdraws
nothing, and a further run from `s1` to `s2` pushes nothing and makes `n`
successful withdrawals (the `consume` steps of lines 72-76), then these withdrawals
return `pn, .., p1` in exactly that order and the stack of `s2` is the stack of
`s`. -/
theorem lifo_law (cfg : Config) (s s1 s2 : State) (as1 as2 : List Action)
    (ps : List Job)
    (h1 : runFrom cfg s as1 = some s1)
    (hpush : pushedJobs s1.out = pushedJobs s.out ++ ps)
    (hnw : withdrawnJobs s1.out = withdrawnJobs s.out)
    (h2 : runFrom cfg s1 as2 = some s2)
    (hnp : pushedJobs s2.out = pushedJobs s1.out)
    (hn : (withdrawnJobs s2.out).length = (withdrawnJobs s1.out).length + ps.length) :
    withdrawnJobs s2.out = withdrawnJobs s1.out ++ ps.reverse ∧
    s2.products = s.products := by
  obtain ⟨ps', hp', hprod1⟩ := runFrom_push_only h1 (by rw [hnw])
  have hps : ps' = ps := List.append_cancel_left (hp'.symm.trans hpush)
  subst hps
  obtain ⟨ws, hw, hprod2⟩ := runFrom_withdraw_only h2 (by rw [hnp])
  have hlen : ws.length = ps'.reverse.length := by
    rw [hw, List.length_append] at hn
    rw [List.length_reverse]
    omega
  rw [hprod1] at hprod2
  obtain ⟨e1, e2⟩ := List.append_inj hprod2.symm hlen
  exact ⟨by rw [hw, e1], e2⟩

theorem lifo_law_witness :
    ∃ s1 s2, runFrom ⟨5, 2, 1, 1⟩ (init ⟨5, 2, 1, 1⟩) twoPushes = some s1 ∧
      runFrom ⟨5, 2, 1, 1⟩ s1 twoWithdrawals = some s2 ∧
      s1.products = [(2, 8), (3, 5)] ∧
      withdrawnJobs s2.out = [(2, 8), (3, 5)] ∧ s2.products = [] := by
  refine ⟨_, _, rfl, rfl, by decide, ?_⟩
  have h := lifo_law ⟨5, 2, 1, 1⟩ (init ⟨5, 2, 1, 1⟩) _ _ twoPushes twoWithdrawals
    [(3, 5), (2, 8)] rfl (by decide) (by decide) rfl (by decide) (by decide)
  exact h

/-! ## Ranges of the generated values -/

/-- C7. Job field ranges: for a positive `queue_size` and non-negative values of
`rand()`, the job built at lines 50-51 has `0 ≤ id < queue_size` and
`1 ≤ duration ≤ 10`, and the delay of line 92 is between 1 and 5. -/
theorem job_field_ranges (q r1 r2 r3 : Int) (hq : 0 < q) (h1 : 0 ≤ r1) (h2 : 0 ≤ r2)
    (h3 : 0 ≤ r3) :
    (0 ≤ product_first q r1 ∧ product_first q r1 < q) ∧
    (1 ≤ product_second r2 ∧ product_second r2 ≤ 10) ∧
    (1 ≤ rand_delay r3 ∧ rand_delay r3 ≤ 5) := by
  unfold product_first product_second rand_delay
  have a1 := Int.tmod_nonneg q h1
  have a2 := Int.tmod_lt_of_pos r1 hq
  have b1 := Int.tmod_nonneg 10 h2
  have b2 := Int.tmod_lt_of_pos r2 (show (0 : Int) < 10 by decide)
  have c1 := Int.tmod_nonneg 5 h3
  have c2 := Int.tmod_lt_of_pos r3 (show (0 : Int) < 5 by decide)
  omega

theorem job_field_ranges_witness :
    (0 ≤ product_first 5 12 ∧ product_first 5 12 < 5) ∧
    (1 ≤ product_second 29 ∧ product_second 29 ≤ 10) ∧
    (1 ≤ rand_delay 14 ∧ rand_delay 14 ≤ 5) :=
  job_field_ranges 5 12 29 14 (by decide) (by decide) (by decide) (by decide)

/-! ## Concrete runs -/

/-- C1. The stack grows beyond `queue_size`: with `queue_size = 1` and
`max_jobs = 2` the single producer reaches its second `produce` with one job on the
stack (`size == queue_size`), and its next step pushes a second job. -/
theorem capacity_exceeded :
    main 5 1 2 1 0 = some ⟨1, 2, 1, 0⟩ ∧
    ∃ s s', runFrom ⟨1, 2, 1, 0⟩ (init ⟨1, 2, 1, 0⟩) overfill = some s ∧
      s.products.length = 1 ∧
      step ⟨1, 2, 1, 0⟩ s (Action.prod 0 0 0) = some s' ∧
      s'.products.length = 2 := by
  refine ⟨by decide, _, _, rfl, by decide, rfl, by decide⟩

/-- C10. A zero `queue_size` passes the checks of `main`, and the first `produce`
then evaluates `rand() % queue_size` with a zero divisor. -/
theorem zero_queue_size_accepted :
    main 5 0 1 1 0 = some ⟨0, 1, 1, 0⟩ ∧
    (runFrom ⟨0, 1, 1, 0⟩ (init ⟨0, 1, 1, 0⟩)
      (List.replicate 4 (Action.prod 0 0 0))).map State.fault =
        some (some Fault.divByZero) := by
  decide

/-! ## The counter of working producers -/

/-- C6. In every reachable state `num_producers_working` is the number of producer
threads that have executed the increment of line 88 and not yet the decrement of
line 102; so it is never negative and never exceeds `num_producers`, it is 0 once
all producers have returned, and it stays 0 in every later state. -/
theorem active_producer_count (cfg : Config) (s : State) (hr : Reachable cfg s) :
    s.num_producers_working = ((s.producers.countP PState.working : Nat) : Int) ∧
    0 ≤ s.num_producers_working ∧
    s.num_producers_working ≤ (cfg.num_producers : Int) ∧
    ((∀ ps ∈ s.producers, ps = PState.done) →
      s.num_producers_working = 0 ∧
      ∀ acts s', runFrom cfg s acts = some s' →
        (∀ ps ∈ s'.producers, ps = PState.done) ∧ s'.num_producers_working = 0) := by
  have key : ∀ s, Reachable cfg s →
      s.num_producers_working = ((s.producers.countP PState.working : Nat) : Int) := by
    intro s hr
    have hinv := reachable_inv hr
    rw [hinv.count, sum_active_eq_countP]
  have hinv := reachable_inv hr
  have hle := List.countP_le_length PState.working (l := s.producers)
  rw [hinv.len.1] at hle
  refine ⟨key s hr, by rw [key s hr]; omega, by rw [key s hr]; omega, ?_⟩
  intro hd
  refine ⟨by rw [key s hr, countP_working_of_done _ hd]; rfl, ?_⟩
  intro acts s' hrun
  have hp := runFrom_producers_of_done hd hrun
  have hd' : ∀ ps ∈ s'.producers, ps = PState.done := by rw [hp]; exact hd
  refine ⟨hd', ?_⟩
  rw [key s' (reachable_runFrom hr hrun), countP_working_of_done _ hd']
  rfl

theorem active_producer_count_witness :
    ∃ s, runFrom ⟨1, 1, 1, 0⟩ (init ⟨1, 1, 1, 0⟩) producerAlone = some s ∧
      (∀ ps ∈ s.producers, ps = PState.done) ∧ s.num_producers_working = 0 := by
  refine ⟨_, rfl, by decide, ?_⟩
  exact ((active_producer_count ⟨1, 1, 1, 0⟩ _ ⟨producerAlone, rfl⟩).2.2.2 (by decide)).1

/-! ## Producers can run to completion -/

theorem runFrom_cons_of_step {cfg : Config} {s s1 s2 : State} {a : Action}
    {as : List Action} (h1 : step cfg s a = some s1) (h2 : runFrom cfg s1 as = some s2) :
    runFrom cfg s (a :: as) = some s2 := by
  simp only [runFrom, h1]
  exact h2

theorem producer_iteration {cfg : Config} {s : State} {k i : Nat}
    (hs : Quiet s k (PState.loop i)) (hi : i < cfg.max_jobs) (hq : cfg.queue_size ≠ 0) :
    ∃ acts s', runFrom cfg s acts = some s' ∧ Quiet s' k (PState.loop (i + 1)) ∧
      s'.producers = s.producers.set k (PState.loop (i + 1)) := by
  obtain ⟨hf, hm, hk⟩ := hs
  have hlt : k < s.producers.length := (List.getElem?_eq_some_iff.1 hk).1
  refine ⟨List.replicate 5 (Action.prod k 0 0),
    { s with xmutex := none
             products := (product_first cfg.queue_size (0 : Nat), product_second (0 : Nat)) ::
               s.products
             out := s.out ++ [Event.produced k
               (product_first cfg.queue_size (0 : Nat), product_second (0 : Nat))]
             producers := s.producers.set k (PState.loop (i + 1)) }, ?_, ?_, rfl⟩
  · simp [runFrom, step, producer, produce, hf, hm, hk, hi, hq, hlt, push]
  · simp [Quiet, hf, hlt]


theorem producer_loop {cfg : Config} (hq : cfg.max_jobs = 0 ∨ 0 < cfg.queue_size)
    (k n : Nat) : ∀ (s : State) (i : Nat), i + n = cfg.max_jobs →
      Quiet s k (PState.loop i) →
      ∃ acts s', runFrom cfg s acts = some s' ∧ Quiet s' k (PState.loop cfg.max_jobs) ∧
        ∀ j, j ≠ k → s'.producers[j]? = s.producers[j]? := by
  induction n with
  | zero =>
    intro s i hi hs
    have : i = cfg.max_jobs := by omega
    subst this
    exact ⟨[], s, rfl, hs, fun _ _ => rfl⟩
  | succ n ih =>
    intro s i hi hs
    have hq' : cfg.queue_size ≠ 0 := by omega
    obtain ⟨a1, s1, h1, hs1, hp1⟩ := producer_iteration hs (by omega) hq'
    obtain ⟨a2, s2, h2, hs2, hp2⟩ := ih s1 (i + 1) (by omega) hs1
    refine ⟨a1 ++ a2, s2, runFrom_append h1 h2, hs2, ?_⟩
    intro j hj
    rw [hp2 j hj, hp1, List.getElem?_set_ne (Ne.symm hj)]

theorem producer_completes {cfg : Config} (hq : cfg.max_jobs = 0 ∨ 0 < cfg.queue_size)
    {s : State} {k : Nat} (hs : Quiet s k PState.start) :
    ∃ acts s', runFrom cfg s acts = some s' ∧ Quiet s' k PState.done ∧
      ∀ j, j ≠ k → s'.producers[j]? = s.producers[j]? := by
  obtain ⟨hf, hm, hk⟩ := hs
  have hlt : k < s.producers.length := (List.getElem?_eq_some_iff.1 hk).1
  have h1 : runFrom cfg s [Action.prod k 0 0] = some
      { s with num_producers_working := s.num_producers_working + 1
               producers := s.producers.set k (PState.loop 0) } := by
    simp [runFrom, step, producer, hf, hk]
  obtain ⟨a2, s2, h2, ⟨hf2, hm2, hk2⟩, hp2⟩ := producer_loop hq k cfg.max_jobs
    { s with num_producers_working := s.num_producers_working + 1
             producers := s.producers.set k (PState.loop 0) } 0 (by omega)
    ⟨hf, hm, by simp [hlt]⟩
  have hlt2 : k < s2.producers.length := (List.getElem?_eq_some_iff.1 hk2).1
  have h3 : runFrom cfg s2 (List.replicate 2 (Action.prod k 0 0)) = some
      { s2 with num_producers_working := s2.num_producers_working - 1
                out := s2.out ++ [Event.noMoreToGenerate k]
                producers := s2.producers.set k PState.done } := by
    simp [runFrom, step, producer, hf2, hk2, hlt2]
  refine ⟨_, _, runFrom_append (runFrom_append h1 h2) h3, ⟨hf2, hm2, by simp [hlt2]⟩, ?_⟩
  intro j hj
  show (s2.producers.set k PState.done)[j]? = _
  rw [List.getElem?_set_ne (Ne.symm hj), hp2 j hj]
  show (s.producers.set k (PState.loop 0))[j]? = _
  rw [List.getElem?_set_ne (Ne.symm hj)]

theorem producers_complete_upto {cfg : Config}
    (hq : cfg.max_jobs = 0 ∨ 0 < cfg.queue_size) (m : Nat) (hm : m ≤ cfg.num_producers) :
    ∃ acts s, runFrom cfg (init cfg) acts = some s ∧ s.fault = none ∧ s.xmutex = none ∧
      (∀ j, j < m → s.producers[j]? = some PState.done) ∧
      (∀ j, m ≤ j → j < cfg.num_producers → s.producers[j]? = some PState.start) := by
  induction m with
  | zero =>
    refine ⟨[], init cfg, rfl, rfl, rfl, fun j hj => absurd hj (Nat.not_lt_zero j), ?_⟩
    intro j _ hj
    simp [init, List.getElem?_replicate, hj]
  | succ m ih =>
    obtain ⟨a1, s1, h1, hf1, hm1, hd1, hs1⟩ := ih (by omega)
    obtain ⟨a2, s2, h2, ⟨hf2, hm2, hk2⟩, hp2⟩ :=
      producer_completes hq ⟨hf1, hm1, hs1 m (Nat.le_refl m) (by omega)⟩
    refine ⟨a1 ++ a2, s2, runFrom_append h1 h2, hf2, hm2, ?_, ?_⟩
    · intro j hj
      by_cases hjm : j = m
      · rw [hjm]; exact hk2
      · rw [hp2 j hjm]; exact hd1 j (by omega)
    · intro j hj hjP
      rw [hp2 j (by omega)]
      exact hs1 j (by omega) hjP

theorem producers_can_complete (cfg : Config)
    (hq : cfg.max_jobs = 0 ∨ 0 < cfg.queue_size) :
    ∃ s, Reachable cfg s ∧ ∀ ps ∈ s.producers, ps = PState.done := by
  obtain ⟨acts, s, h, _, _, hd, _⟩ := producers_complete_upto hq cfg.num_producers (Nat.le_refl _)
  refine ⟨s, ⟨acts, h⟩, ?_⟩
  intro ps hps
  obtain ⟨n, hn⟩ := List.getElem?_of_mem hps
  have hlen := (reachable_inv ⟨acts, h⟩).len.1
  have hlt : n < s.producers.length := (List.getElem?_eq_some_iff.1 hn).1
  have := hd n (by omega)
  rw [hn] at this
  exact Option.some.inj this

/-! ## Quota of a producer -/

/-- C9. Producer quota: in every reachable state a producer has pushed at most
`max_jobs` jobs, and a producer that has reached its decrement of
`num_producers_working` (line 102) or has returned has pushed exactly `max_jobs`
jobs; when all producers have returned, `num_producers * max_jobs` jobs have been
pushed in total; and such a state is reachable whenever `produce` cannot divide by
zero (`max_jobs = 0` or `queue_size > 0`). -/
theorem producer_quota (cfg : Config) (s : State) (hr : Reachable cfg s) :
    (∀ k ps, s.producers[k]? = some ps → pushCount k s.out ≤ cfg.max_jobs) ∧
    (∀ k, s.producers[k]? = some PState.finishing ∨ s.producers[k]? = some PState.done →
      pushCount k s.out = cfg.max_jobs) ∧
    ((∀ ps ∈ s.producers, ps = PState.done) →
      (pushedJobs s.out).length = cfg.num_producers * cfg.max_jobs) ∧
    (cfg.max_jobs = 0 ∨ 0 < cfg.queue_size →
      ∃ s', Reachable cfg s' ∧ (∀ ps ∈ s'.producers, ps = PState.done) ∧
        (pushedJobs s'.out).length = cfg.num_producers * cfg.max_jobs) := by
  have total : ∀ s, Reachable cfg s → (∀ ps ∈ s.producers, ps = PState.done) →
      (pushedJobs s.out).length = cfg.num_producers * cfg.max_jobs := by
    intro s hr hd
    have hinv := reachable_inv hr
    rw [hinv.total, ← hinv.len.1]
    apply sum_map_const
    intro ps hps
    rw [hd ps hps]
    rfl
  have hinv := reachable_inv hr
  refine ⟨?_, ?_, total s hr, ?_⟩
  · intro k ps hk
    obtain ⟨hwf, hc⟩ := hinv.quota k ps hk
    rw [hc]
    exact PState.pushes_le hwf
  · rintro k (hk | hk)
    · exact (hinv.quota k _ hk).2
    · exact (hinv.quota k _ hk).2
  · intro hq
    obtain ⟨s', hr', hd'⟩ := producers_can_complete cfg hq
    exact ⟨s', hr', hd', total s' hr' hd'⟩

theorem producer_quota_witness :
    ∃ s, runFrom ⟨5, 3, 2, 2⟩ (init ⟨5, 3, 2, 2⟩) scenarioA = some s ∧
      (∀ ps ∈ s.producers, ps = PState.done) ∧ (pushedJobs s.out).length = 6 := by
  refine ⟨_, rfl, by decide, ?_⟩
  exact (producer_quota ⟨5, 3, 2, 2⟩ _ ⟨scenarioA, rfl⟩).2.2.1 (by decide)

/-! ## Conservation of jobs -/

/-- C3, as stated, fails: with two producers and one consumer there is a run in
which every thread has returned, two jobs were pushed, one was withdrawn, and one
job is left on the stack. -/
theorem conservation_fails_with_late_producer :
    ∃ s, runFrom ⟨1, 1, 2, 1⟩ (init ⟨1, 1, 2, 1⟩) lateProducer = some s ∧
      allFinished s ∧ (pushedJobs s.out).length = 2 ∧
      (withdrawnJobs s.out).length = 1 ∧ s.products.length = 1 := by
  refine ⟨_, rfl, by decide, by decide, by decide, by decide⟩

/-- C3, amended. In every reachable state the jobs pushed are, as a multiset, the
jobs withdrawn together with the jobs on the stack (no job is lost or withdrawn
twice). If moreover there is exactly one producer and at least one consumer (or
no producer, or `max_jobs = 0`), then once every thread has returned the stack is
empty and the jobs pushed are exactly the jobs withdrawn. -/
theorem conservation (cfg : Config) (s : State) (hr : Reachable cfg s) :
    (pushedJobs s.out).Perm (withdrawnJobs s.out ++ s.products) ∧
    ((cfg.max_jobs = 0 ∨ cfg.num_producers = 0 ∨
        (cfg.num_producers = 1 ∧ 1 ≤ cfg.num_consumers)) →
      allFinished s →
      s.products = [] ∧ (pushedJobs s.out).Perm (withdrawnJobs s.out)) := by
  have hinv := reachable_inv hr
  refine ⟨hinv.perm, ?_⟩
  intro hcfg hfin
  have hempty : s.products = [] := by
    have hzero : cfg.num_producers * cfg.max_jobs = 0 → s.products = [] := by
      intro hz
      have h1 := pushed_le hinv
      have h2 := hinv.perm.length_eq
      rw [List.length_append] at h2
      exact List.length_eq_zero.1 (by omega)
    rcases hcfg with hJ | hP | ⟨hP, hC⟩
    · exact hzero (by rw [hJ]; rfl)
    · exact hzero (by rw [hP]; simp)
    · have hlen : 0 < s.consumers.length := by rw [hinv.len.2]; exact hC
      have h0 : s.consumers[0]? = some (s.consumers.get ⟨0, hlen⟩) := by
        simp [List.getElem?_eq_getElem hlen]
      have hd := hfin.2 _ (List.getElem?_mem h0)
      exact (hinv.solo hP 0 _ h0).2.2 hd
  refine ⟨hempty, ?_⟩
  have : (pushedJobs s.out).Perm (withdrawnJobs s.out ++ s.products) := hinv.perm
  rw [hempty, List.append_nil] at this
  exact this

theorem conservation_witness :
    ∃ s, runFrom ⟨1, 1, 1, 1⟩ (init ⟨1, 1, 1, 1⟩) soloRun = some s ∧
      allFinished s ∧ (pushedJobs s.out).length = 1 ∧
      s.products = [] ∧ (pushedJobs s.out).Perm (withdrawnJobs s.out) := by
  refine ⟨_, rfl, by decide, by decide, ?_⟩
  exact (conservation ⟨1, 1, 1, 1⟩ _ ⟨soloRun, rfl⟩).2
    (Or.inr (Or.inr ⟨rfl, Nat.le_refl 1⟩)) (by decide)

/-! ## Consumers without producers -/

theorem runFrom_spin (cfg : Config) (i : Nat)
    (hi : i < cfg.num_consumers) (t : Bool) (n : Nat) :
    runFrom cfg (init cfg) (List.replicate n (Action.cons i t)) = some (init cfg) := by
  induction n with
  | zero => rfl
  | succ n ih =>
    simp only [List.replicate_succ, runFrom, init_consumer_spins cfg i hi t]
    exact ih

/-- C4. With `num_producers = 0`, which `main` accepts, no consumer ever leaves the
loop of line 109: in every reachable state of every such configuration the program
is still in its initial state (counter 0, stack empty, nothing printed), every
consumer is at line 109, and each of its steps is enabled and leaves the state
unchanged. For `pc 1 1 0 1` in particular the consumer is still at line 109 after
any number of its own steps, and no schedule at all leads to a state in which it
has returned, so the `join` of line 176 never returns. -/
theorem zero_producers_consumer_never_returns :
    (∀ (cfg : Config) (s : State), cfg.num_producers = 0 → Reachable cfg s →
      s = init cfg ∧ s.num_producers_working = 0 ∧ s.products = [] ∧ s.out = [] ∧
      ∀ i, i < cfg.num_consumers →
        s.consumers[i]? = some CState.await ∧
        ∀ t, step cfg s (Action.cons i t) = some s) ∧
    main 5 1 1 0 1 = some ⟨1, 1, 0, 1⟩ ∧
    (∀ n t, runFrom ⟨1, 1, 0, 1⟩ (init ⟨1, 1, 0, 1⟩)
        (List.replicate n (Action.cons 0 t)) = some (init ⟨1, 1, 0, 1⟩)) ∧
    (init ⟨1, 1, 0, 1⟩).consumers[0]? = some CState.await ∧
    ¬ ∃ acts s, runFrom ⟨1, 1, 0, 1⟩ (init ⟨1, 1, 0, 1⟩) acts = some s ∧
        s.consumers[0]? = some CState.done := by
  refine ⟨?_, by decide, fun n t => runFrom_spin _ 0 (by decide) t n, by decide, ?_⟩
  · intro cfg s h0 hr
    obtain ⟨acts, h⟩ := hr
    have hs := runFrom_init_of_no_producers h0 h
    subst hs
    refine ⟨rfl, rfl, rfl, rfl, ?_⟩
    intro i hi
    refine ⟨?_, fun t => init_consumer_spins cfg i hi t⟩
    simp [init, List.getElem?_replicate, hi]
  · rintro ⟨acts, s, h, hd⟩
    rw [runFrom_init_of_no_producers rfl h] at hd
    revert hd
    decide

/-! ## The sleep of `consume` -/

/-- C5. The sleep of line 80 happens with `xmutex` held: in every reachable state a
consumer that is in this sleep owns `xmutex`, and no thread waiting at the
`unique_lock` of `produce` or `consume` can take a step; in the concrete run
`sleepingConsumer` the producer is blocked in this way by the sleeping consumer. -/
theorem consume_sleeps_holding_xmutex :
    (∀ (cfg : Config) (s : State) (i : Nat) (d : Int), Reachable cfg s →
      s.consumers[i]? = some (CState.consume (ConsumePc.sleep d)) →
      s.xmutex = some (Tid.consumer i) ∧
      (∀ k j e r1 r2, s.producers[k]? = some (PState.produce j e ProducePc.lock) →
        producer cfg s k r1 r2 = none) ∧
      (∀ i' t, s.consumers[i']? = some (CState.consume ConsumePc.lock) →
        consumer s i' t = none)) ∧
    (∃ s, runFrom ⟨1, 2, 1, 1⟩ (init ⟨1, 2, 1, 1⟩) sleepingConsumer = some s ∧
      s.consumers[0]? = some (CState.consume (ConsumePc.sleep 1)) ∧
      s.xmutex = some (Tid.consumer 0) ∧
      s.producers[0]? = some (PState.produce 1 1 ProducePc.lock) ∧
      step ⟨1, 2, 1, 1⟩ s (Action.prod 0 0 0) = none) := by
  constructor
  · intro cfg s i d hr hi
    have hown := ((reachable_inv hr).mutex.2 i _ hi).1 rfl
    refine ⟨hown, ?_, ?_⟩
    · intro k j e r1 r2 hk
      simp [producer, hk, produce, hown]
    · intro i' t hi'
      simp [consumer, hi', consume, hown]
  · exact ⟨_, rfl, by decide, by decide, by decide, by decide⟩

/-! ## Outcome of a withdrawal -/

/-- C8. Withdrawal outcome. In every reachable state: `top()` is never called on an
empty stack; a consumer for which `wait_for` has returned `true` finds the stack
non-empty, and its next step removes exactly the top element, prints it and keeps
the rest of the stack; a consumer whose wait times out on an empty stack leaves
`consume` through the end of the function with the stack, the output and the
fault flag unchanged. -/
theorem withdrawal_outcome (cfg : Config) (s : State) (i : Nat) (t : Bool)
    (hr : Reachable cfg s) :
    s.fault ≠ some Fault.topOnEmpty ∧
    (s.consumers[i]? = some (CState.consume ConsumePc.got) →
      ∃ p rest, s.products = p :: rest ∧ top s.products = some p ∧
        consumer s i t = some
          { s with products := rest
                   out := s.out ++ [Event.consumed i p]
                   consumers := s.consumers.set i (CState.consume (ConsumePc.sleep p.2)) }) ∧
    (s.consumers[i]? = some (CState.consume ConsumePc.blocked) → s.xmutex = none →
      s.products = [] →
      ∃ s1 s2, consumer s i true = some s1 ∧
        s1.consumers[i]? = some (CState.consume ConsumePc.unlock) ∧
        s1.products = s.products ∧ s1.out = s.out ∧ s1.fault = s.fault ∧
        consumer s1 i t = some s2 ∧
        s2.consumers[i]? = some CState.check ∧
        s2.products = s.products ∧ s2.out = s.out ∧ s2.fault = s.fault) := by
  have hinv := reachable_inv hr
  refine ⟨hinv.nofault.1, ?_, ?_⟩
  · intro hi
    have hne := hinv.nonempty i _ hi rfl
    cases hp : s.products with
    | nil => exact absurd hp hne
    | cons p rest =>
      refine ⟨p, rest, rfl, rfl, ?_⟩
      simp [consumer, hi, consume, top, pop, hp]
  · intro hi hm hp
    have hlt : i < s.consumers.length := (List.getElem?_eq_some_iff.1 hi).1
    have h1 : consumer s i true = some
        { s with xmutex := some (Tid.consumer i)
                 consumers := s.consumers.set i (CState.consume ConsumePc.unlock) } := by
      simp [consumer, hi, consume, hm, hp]
    refine ⟨_, { s with consumers := s.consumers.set i CState.check }, h1, ?_, rfl, rfl, rfl,
      ?_, ?_, rfl, rfl, rfl⟩
    · simp [hlt]
    · simp [consumer, consume, hlt, hm]
    · simp [hlt]

theorem withdrawal_outcome_witness :
    (∃ s, runFrom ⟨1, 1, 1, 1⟩ (init ⟨1, 1, 1, 1⟩) consumerGot = some s ∧
      s.consumers[0]? = some (CState.consume ConsumePc.got) ∧
      ∃ p rest, s.products = p :: rest ∧ top s.products = some p ∧
        consumer s 0 false = some
          { s with products := rest
                   out := s.out ++ [Event.consumed 0 p]
                   consumers := s.consumers.set 0 (CState.consume (ConsumePc.sleep p.2)) }) ∧
    (∃ s, runFrom ⟨1, 1, 1, 1⟩ (init ⟨1, 1, 1, 1⟩) consumerBlocked = some s ∧
      s.consumers[0]? = some (CState.consume ConsumePc.blocked) ∧
      ∃ s1 s2, consumer s 0 true = some s1 ∧ consumer s1 0 false = some s2 ∧
        s2.consumers[0]? = some CState.check ∧ s2.products = s.products) := by
  constructor
  · refine ⟨_, rfl, by decide, ?_⟩
    exact (withdrawal_outcome ⟨1, 1, 1, 1⟩ _ 0 false ⟨consumerGot, rfl⟩).2.1 (by decide)
  · refine ⟨_, rfl, by decide, ?_⟩
    obtain ⟨s1, s2, h1, _, _, _, _, h2, h3, h4, _⟩ :=
      (withdrawal_outcome ⟨1, 1, 1, 1⟩ _ 0 false ⟨consumerBlocked, rfl⟩).2.2
        (by decide) (by decide) (by decide)
    exact ⟨s1, s2, h1, h2, h3, h4⟩

end Procon
